import Mathlib

/-!
Verification of the minswap transaction-cache core (src/minswap/transactions.py).

The development shallowly embeds the pure control flow of the module:
timestamps become a structure carrying the calendar fields the code reads
(`year`, `month`) together with an absolute second count used for every
comparison; the on-disk partition directory becomes an association list from
file names to record lists; the remote provider becomes a function from page
number to record list; wall-clock instants consumed by the rate limiter become
an explicit schedule of elapsed seconds.  Fallible paths (the
`ThreadPoolExecutor(n)` constructor raising on a non-positive width, the
`range(_, _, 0)` call raising on a zero step) are modelled with `Option`.
-/

namespace Minswap

/-- Timestamp model for a Python `datetime`: the calendar projections the code
reads (`.year`, `.month`) plus an absolute second count `sec` which orders the
values, as `datetime` comparison and the `datetime64[s]` cast do. -/
structure DateTime where
  year : Nat
  month : Nat
  sec : Int
deriving DecidableEq, Repr, Inhabited

/-- A `PoolTransactionReference` record: fields of models.PoolTransactionReference
used by transactions.py. -/
structure Tx where
  tx_hash : String
  tx_index : Nat
  block_height : Nat
  time : DateTime
deriving DecidableEq, Repr, Inhabited

/-- A cache file name: `base` models the `"YYYYMM.arrow"` string produced by
`_cache_transactions` and `_cache_utxos`; `temp` marks the
`"YYYYMM_temp.arrow"` sibling obtained by `path.with_name(... "_temp.arrow")`. -/
structure PName where
  base : String
  temp : Bool
deriving DecidableEq, Repr, Inhabited

/-- Model of the cache directory for one pool: file name to file contents. -/
abbrev FS (α : Type) : Type := List (PName × List α)

/-- Read a file: first entry with the given name, as `vaex`/`pandas.read_feather`
see it. -/
def fsGet {α : Type} (p : PName) : FS α → Option (List α)
  | [] => none
  | e :: rest => if e.1 = p then some e.2 else fsGet p rest

/-- Write a file, overwriting an existing one of the same name and otherwise
creating it (`to_feather`). -/
def fsWrite {α : Type} (fs : FS α) (p : PName) (c : List α) : FS α :=
  match fs with
  | [] => [(p, c)]
  | e :: rest => if e.1 = p then (p, c) :: rest else e :: fsWrite rest p c

/-- Delete a file (`Path.unlink`). -/
def fsUnlink {α : Type} (fs : FS α) (p : PName) : FS α :=
  match fs with
  | [] => []
  | e :: rest => if e.1 = p then fsUnlink rest p else e :: fsUnlink rest p

/-- Rename a file (`Path.rename`); missing sources never occur in the embedded
flows. -/
def fsRename {α : Type} (fs : FS α) (src dst : PName) : FS α :=
  match fsGet src fs with
  | none => fs
  | some c => fsWrite (fsUnlink fs src) dst c

/-- Records of every cache file in directory order, the logical view
`vaex.open` exposes over the matched files. -/
def allRecords {α : Type} (fs : FS α) : List α :=
  (List.map Prod.snd fs).flatten

/-- The `f"{year}{str(month).zfill(2)}"` stem of a monthly partition. -/
def zfill2 (m : Nat) : String :=
  if m < 10 then "0" ++ toString m else toString m

/-- The `f"{year}{str(month).zfill(2)}.arrow"` partition file name. -/
def cacheName (y m : Nat) : String :=
  toString y ++ zfill2 m ++ ".arrow"

/-- Partition file name for a (year, month) pair. -/
def pname (y m : Nat) : PName := ⟨cacheName y m, false⟩

/-- Temporary sibling of a partition file
(`path.with_name(path.name.replace(".arrow", "_temp.arrow"))`). -/
def tmpOf (p : PName) : PName := ⟨p.base, true⟩

/-- Position of the first adjacent month change, plus one: the value the
`for index in range(len(transactions) - 1)` search in `_cache_transactions`
leaves in `index` when it breaks. -/
def firstMonthChange {α : Type} (tm : α → DateTime) : List α → Option Nat
  | x :: y :: rest =>
    if (tm x).month = (tm y).month then
      Option.map (· + 1) (firstMonthChange tm (y :: rest))
    else
      some 1
  | _ => none

/-- The split index computed at the top of `_cache_transactions` and
`_cache_utxos`: the whole list when the first and last records share a month
number, otherwise one past the first adjacent month change.  The final branch
is the fall-through value of the Python `for` loop and is unreachable when the
first and last month numbers differ. -/
def cacheIndex {α : Type} (tm : α → DateTime) (l : List α) : Nat :=
  match l with
  | [] => 0
  | x :: rest =>
    if (tm x).month = (tm (rest.getLastD x)).month then
      l.length
    else
      match firstMonthChange tm l with
      | some i => i
      | none => l.length - 2

/-- The rewrite sequence of an existing-partition merge: `to_feather(tmp)`,
`path.unlink()`, `tmp.rename(path)`. -/
def mergeWrite {β : Type} (fs : FS β) (path tmp : PName) (c : List β) : FS β :=
  fsRename (fsUnlink (fsWrite fs tmp c) path) tmp path

/-- The successive directory states of the rewrite: initial, after
`to_feather(tmp_path)`, after `path.unlink()`, after `tmp_path.rename(path)`. -/
def mergeTrace {β : Type} (fs : FS β) (path tmp : PName) (c : List β) : List (FS β) :=
  [fs, fsWrite fs tmp c, fsUnlink (fsWrite fs tmp c) path, mergeWrite fs path tmp c]

/-- The write-new / merge-existing step shared by `_cache_transactions`
(lines 100-113) and `_cache_utxos` (lines 146-159): a fresh partition is
written outright; an existing one is loaded, its tail timestamp taken as a
threshold, the strictly newer incoming rows appended, and the file rewritten
through the temporary name by write, unlink, rename.  Partition files are only
ever created non-empty, so the `getLastD default` tail read never sees the
default. -/
def partitionMerge {β : Type} [Inhabited β] (sec : β → Int) (store : FS β)
    (nm : PName) (rows : List β) : FS β :=
  match fsGet nm store with
  | some old =>
    let threshold := sec (old.getLastD default)
    let filtered := rows.filter (fun r => threshold < sec r)
    if 0 < filtered.length then mergeWrite store nm (tmpOf nm) (old ++ filtered)
    else store
  | none => fsWrite store nm rows

/-- `_cache_transactions`: split the buffer at the first month boundary, merge
the leading chunk into its partition, return the remainder. -/
def cacheStep (store : FS Tx) (txs : List Tx) : List Tx × FS Tx :=
  match txs with
  | [] => ([], store)
  | x :: _ =>
    let index := cacheIndex Tx.time txs
    let nm : PName := ⟨cacheName x.time.year x.time.month, false⟩
    (txs.drop index, partitionMerge (fun r => r.time.sec) store nm (txs.take index))

/-- A `(time, dataframe)` pair produced in `cache_utxos` by zipping cached
transaction times with `get_utxo` results; row payloads are abstract. -/
abbrev UItem : Type := DateTime × List Nat

/-- A stored utxo row: the dataframe row tagged with the `time` column value
`_cache_utxos` assigns from its tuple. -/
abbrev URow : Type := DateTime × Nat

/-- `_cache_utxos`: split at the first month boundary of the tuple times,
expand the leading tuples to time-tagged rows, merge into the partition,
return the remaining tuples. -/
def ucacheStep (store : FS URow) (items : List UItem) : List UItem × FS URow :=
  match items with
  | [] => ([], store)
  | x :: _ =>
    let index := cacheIndex Prod.fst items
    let rows := (List.map (fun it : UItem => List.map (fun d => ((it.1, d) : URow)) it.2)
      (items.take index)).flatten
    let nm : PName := ⟨cacheName x.1.year x.1.month, false⟩
    (items.drop index, partitionMerge (fun r : URow => r.1.sec) store nm rows)

/-- The `while len(buf) > 0 and buf[0].month != buf[-1].month` flush loop of
both fetch flows; the fuel argument is instantiated with the buffer length,
which bounds the iteration count since every step drops at least one record. -/
def flushGo {α β : Type} (tm : α → DateTime) (step : FS β → List α → List α × FS β) :
    Nat → FS β → List α → FS β × List α
  | 0, store, buf => (store, buf)
  | fuel + 1, store, buf =>
    match buf with
    | [] => (store, buf)
    | x :: rest =>
      if (tm x).month = (tm (rest.getLastD x)).month then (store, buf)
      else
        let r := step store (x :: rest)
        flushGo tm step fuel r.2 r.1

/-- The transaction-reference flush loop (cache_transactions lines 363-374). -/
def txFlushLoop (store : FS Tx) (buf : List Tx) : FS Tx × List Tx :=
  flushGo Tx.time cacheStep buf.length store buf

/-- The utxo flush loop (cache_utxos lines 476-485). -/
def uFlushLoop (store : FS URow) (buf : List UItem) : FS URow × List UItem :=
  flushGo Prod.fst ucacheStep buf.length store buf

/-- The month-flush loop followed by the end-of-run flush of the pending
remainder (cache_transactions lines 363-382) applied to one buffer. -/
def flushRun (store : FS Tx) (buf : List Tx) : FS Tx :=
  let r := txFlushLoop store buf
  if r.2 = [] then r.1 else (cacheStep r.1 r.2).2

/-- The trailing-30-day window of cache_transactions lines 272-277: records
strictly newer than `now - timedelta(days=30)`, falling back to the whole
cache when at most one such record exists. -/
def estWindow (cache : List Tx) (now : DateTime) : List Tx :=
  let lastMonth : Int := now.sec - 30 * 86400
  let filtered := cache.filter (fun r => lastMonth < r.time.sec)
  if filtered.length ≤ 1 then cache else filtered

/-- The `call_batch` estimate of cache_transactions lines 271-297: one page at
a time when the window still holds at most one record or spans zero seconds,
otherwise `min(cpu_count(), int(time_delta * tps // 100))` with
`tps = n_transactions / time_period`.  Both `datetime.utcnow()` reads of the
run are modelled by the same instant `now`. -/
def estimateBatch (cache : List Tx) (now : DateTime) (cpu : Nat) : Int :=
  let filtered := estWindow cache now
  if filtered.length ≤ 1 then 1
  else
    let timePeriod : ℚ :=
      (((filtered.getLastD default).time.sec - (filtered.headD default).time.sec : Int) : ℚ)
    if timePeriod = 0 then 1
    else
      let tps : ℚ := (filtered.length : ℚ) / timePeriod
      let timeDelta : ℚ := (((now.sec - (filtered.getLastD default).time.sec : Int)) : ℚ)
      min (cpu : Int) ⌊timeDelta * tps / 100⌋

/-- The resume decision of cache_transactions lines 264-304: with no cache
files the run starts at page 1 with a core-count batch; with a cache it starts
at `len(cache) // 100 + 1` with the estimated batch. -/
def resumePlan (fs : FS Tx) (now : DateTime) (cpu : Nat) : Nat × Int :=
  if fs = [] then (1, (cpu : Int))
  else
    let cache := allRecords fs
    (cache.length / 100 + 1, estimateBatch cache now cpu)

/-- The `if call_batch == 0: call_batch = 1` guard of lines 306-307; a negative
estimate passes through unchanged. -/
def planGuard (c : Int) : Int :=
  if c = 0 then 1 else c

/-- One `reserve`-style rate-limit step (lines 331-347 and 447-463): deduct the
batch from `calls_allowed`; on every batch after the first credit the elapsed
seconds at 10 credits per second, and when the balance is negative sleep
`5 * batch / 10` seconds — credited back at the same rate — after logging a
non-fatal warning.  Returns the new balance and the sleep duration. -/
def rateStep (allowed : ℚ) (elapsed : Option ℚ) (n : Nat) : ℚ × ℚ :=
  let a := allowed - (n : ℚ)
  match elapsed with
  | none => (a, 0)
  | some e =>
    let a := a + e * 10
    if a < 0 then
      let d : ℚ := 5 * (n : ℚ) / 10
      (a + d * 10, d)
    else (a, 0)

/-- Loop state of the cache_transactions fetch loop (lines 318-374). -/
structure FetchState where
  done : Bool
  numCalls : Nat
  page : Nat
  callBatch : Nat
  callsAllowed : ℚ
  started : Bool
  iter : Nat
  transactions : List Tx
  store : FS Tx
deriving Repr

/-- The batch width actually dispatched by an iteration: lines 325-326 shrink
the batch to the remaining budget when a full batch would overshoot it. -/
def dispatchSize (maxCalls : Nat) (s : FetchState) : Nat :=
  if maxCalls < s.numCalls + s.callBatch then maxCalls - s.numCalls else s.callBatch

/-- Drain one batch of page results in dispatch order (lines 354-361): a page
shorter than 100 records marks the run done, and an empty page additionally
abandons the remaining in-flight results; every other page is appended. -/
def collectBatch : List (List Tx) → List Tx × Bool
  | [] => ([], false)
  | t :: rest =>
    if t.length = 100 then
      let r := collectBatch rest
      (t ++ r.1, r.2)
    else if t.length = 0 then ([], true)
    else
      let r := collectBatch rest
      (t ++ r.1, true)

/-- One iteration of the cache_transactions `while` body (lines 324-374):
shrink the batch to the budget, count the calls, step the rate limiter with
the elapsed seconds of the schedule, fetch pages `page .. page+batch-1`,
drain them, and run the month-flush loop on the extended buffer. -/
def fetchIter (provider : Nat → List Tx) (elapsed : Nat → ℚ) (maxCalls : Nat)
    (s : FetchState) : FetchState :=
  let cb := dispatchSize maxCalls s
  let rl := rateStep s.callsAllowed (if s.started then some (elapsed s.iter) else none) cb
  let batch := collectBatch (List.map (fun i => provider (s.page + i)) (List.range cb))
  let buf := s.transactions ++ batch.1
  let fl := txFlushLoop s.store buf
  { done := s.done || batch.2, numCalls := s.numCalls + cb, page := s.page + cb,
    callBatch := cb, callsAllowed := rl.1, started := true, iter := s.iter + 1,
    transactions := fl.2, store := fl.1 }

/-- The `while not done and num_calls < max_calls` loop.  The fuel is
instantiated with `maxCalls`, which bounds the iteration count because every
iteration issues at least one call. -/
def fetchLoop (provider : Nat → List Tx) (elapsed : Nat → ℚ) (maxCalls : Nat) :
    Nat → FetchState → FetchState
  | 0, s => s
  | fuel + 1, s =>
    if s.done = false ∧ s.numCalls < maxCalls then
      fetchLoop provider elapsed maxCalls fuel (fetchIter provider elapsed maxCalls s)
    else s

/-- `cache_transactions(pool_id, max_calls)` for one pool: `fs` is the pool
cache directory, `provider` the page reads of `get_pool_transaction_history`,
`elapsed` the wall-clock seconds between successive batch starts.  Returns
`none` when `ThreadPoolExecutor(call_batch)` would raise on a non-positive
width — possible since a negative estimate evades the `== 0` guard — and
otherwise the `num_calls` result with the final cache directory. -/
def cacheTransactions (fs : FS Tx) (provider : Nat → List Tx) (now : DateTime)
    (cpu maxCalls : Nat) (elapsed : Nat → ℚ) : Option (Nat × FS Tx) :=
  let plan := resumePlan fs now cpu
  let cb := planGuard plan.2
  if cb < 0 then none
  else
    let s0 : FetchState :=
      { done := false, numCalls := 0, page := plan.1, callBatch := cb.toNat,
        callsAllowed := 500, started := false, iter := 0, transactions := [], store := fs }
    let s := fetchLoop provider elapsed maxCalls maxCalls s0
    let finalStore := if s.transactions = [] then s.store else (cacheStep s.store s.transactions).2
    some (s.numCalls, finalStore)

/-- The reference records cache_utxos still has to detail (lines 415-424): all
cached references, restricted to those strictly newer than the utxo-cache tail
when a utxo cache exists. -/
def uncachedRefs (rfs : FS Tx) (ufs : FS URow) : List Tx :=
  let cache := allRecords rfs
  match (allRecords ufs).getLast? with
  | none => cache
  | some tail => cache.filter (fun r => tail.1.sec < r.time.sec)

/-- Successive `be - bs` chunk widths of `range(0, total, step)` slicing in
cache_utxos lines 439-442; the fuel is instantiated with `total`. -/
def chunkSizesGo : Nat → Nat → Nat → List Nat
  | 0, _, _ => []
  | fuel + 1, total, step =>
    if total = 0 then []
    else min step total :: chunkSizesGo fuel (total - min step total) step

/-- The batched detail-fetch loop of cache_utxos (lines 439-485): per chunk,
count the calls, step the rate limiter, fetch one utxo table per transaction
hash of the slice, zip with the cached times, and run the month-flush loop. -/
def utxoLoop (getU : String → List Nat) (refs : List Tx) (elapsed : Nat → ℚ) :
    List Nat → Nat → Nat → List UItem → FS URow → ℚ → Bool → Nat → Nat × FS URow × List UItem
  | [], _, numCalls, buffer, store, _, _, _ => (numCalls, store, buffer)
  | c :: rest, pos, numCalls, buffer, store, allowed, started, it =>
    let numCalls := numCalls + c
    let rl := rateStep allowed (if started then some (elapsed it) else none) c
    let slice := (refs.drop pos).take c
    let items := List.map (fun r => ((r.time, getU r.tx_hash) : UItem)) slice
    let fl := uFlushLoop store (buffer ++ items)
    utxoLoop getU refs elapsed rest (pos + c) numCalls fl.2 fl.1 rl.1 true (it + 1)

/-- `cache_utxos(pool_id, max_calls)`: a missing reference cache returns zero
work with the utxo directory untouched (lines 415-417); otherwise at most
`min(max_calls, len(cache))` detail calls are issued in core-count chunks.
`none` models the `ValueError` of `range(_, _, 0)` on a zero core count. -/
def cacheUtxos (rfs : FS Tx) (ufs : FS URow) (getU : String → List Nat)
    (maxCalls cpu : Nat) (elapsed : Nat → ℚ) : Option (Nat × FS URow) :=
  if rfs = [] then some (0, ufs)
  else
    let cache := uncachedRefs rfs ufs
    let lastIndex := min maxCalls cache.length
    if cpu = 0 then none
    else
      let chunks := chunkSizesGo lastIndex lastIndex cpu
      let r := utxoLoop getU cache elapsed chunks 0 0 [] ufs 500 false 0
      let store := if r.2.2 = [] then r.2.1 else (ucacheStep r.2.1 r.2.2).2
      some (r.1, store)

/-- Spec-side batch-size formula, transcribed from the specification words for
comparison against `estimateBatch`: restrict to the trailing 30 days, fall back
to the whole cache and then to one page when fewer than 2 records remain,
otherwise `min(available_concurrency, floor(time_since_last * tps / page_size))`
with `tps = count / (last_time - first_time)`. -/
def specBatchSize (cache : List Tx) (now : DateTime) (cpu : Nat) : Int :=
  let window := cache.filter (fun r => now.sec - 30 * 86400 < r.time.sec)
  let window := if window.length < 2 then cache else window
  if window.length < 2 then 1
  else
    let count : ℚ := (window.length : ℚ)
    let tps : ℚ :=
      count / (((window.getLastD default).time.sec - (window.headD default).time.sec : Int) : ℚ)
    let timeSinceLast : ℚ := (((now.sec - (window.getLastD default).time.sec : Int)) : ℚ)
    min (cpu : Int) ⌊timeSinceLast * tps / 100⌋

/-! Concrete fixtures used by witnesses and counterexamples. -/

/-- A rate-limit schedule with no elapsed time between batches. -/
def zeroElapsed : Nat → ℚ := fun _ => 0

/-- A provider with no records at all. -/
def provEmpty : Nat → List Tx := fun _ => []

/-- A utxo reader returning an empty table for every hash. -/
def getUEmpty : String → List Nat := fun _ => []

/-- The 250-record single-month stream of the specification scenario, with
pairwise distinct hashes. -/
def s250 : List Tx :=
  (List.range 250).map
    (fun i => ⟨String.mk (List.replicate i 'a'), i, i, ⟨2023, 5, (i : Int)⟩⟩)

/-- A provider paging `s250` in ascending pages of 100: pages of
100, 100 and 50 records followed by empty pages. -/
def prov250 : Nat → List Tx := fun p => (s250.drop ((p - 1) * 100) |>.take 100)

/-- The instant at which the scenario run is made. -/
def dt400 : DateTime := ⟨2023, 5, 400⟩

/-- First record of the C3 merge example. -/
def c3r1 : Tx := ⟨"r1", 0, 0, ⟨2023, 1, 1⟩⟩

/-- Second, strictly newer record of the C3 merge example. -/
def c3r2 : Tx := ⟨"r2", 1, 1, ⟨2023, 1, 2⟩⟩

/-- Directory holding the existing January partition of the C3 example. -/
def c3fs : FS Tx := [(pname 2023 1, [c3r1])]

/-- The rewritten January contents of the C3 example. -/
def c3new : List Tx := [c3r1, c3r2]

/-- Directory state of the C3 rewrite after `path.unlink()` and before
`tmp_path.rename(path)`. -/
def c3mid : FS Tx := fsUnlink (fsWrite c3fs (tmpOf (pname 2023 1)) c3new) (pname 2023 1)

/-- First cached record of the completed-cache examples. -/
def c5tx1 : Tx := ⟨"c", 0, 0, ⟨2023, 5, 0⟩⟩

/-- Second cached record of the completed-cache examples. -/
def c5tx2 : Tx := ⟨"d", 1, 1, ⟨2023, 5, 1⟩⟩

/-- A cache directory already holding every remote record. -/
def c5fs : FS Tx := [(pname 2023 5, [c5tx1, c5tx2])]

/-- A provider serving exactly the two cached records, in one short page. -/
def c5prov : Nat → List Tx :=
  fun p => ((allRecords c5fs).drop ((p - 1) * 100) |>.take 100)

/-- An instant 200 seconds after the cache tail, making the estimator pick a
batch of 4. -/
def c5now : DateTime := ⟨2023, 5, 201⟩

/-- A cached record dated after the C7 run instant. -/
def c7tx1 : Tx := ⟨"a", 0, 0, ⟨2023, 5, 1000⟩⟩

/-- A later cached record dated after the C7 run instant. -/
def c7tx2 : Tx := ⟨"b", 1, 1, ⟨2023, 5, 2000⟩⟩

/-- A run instant earlier than every cached record. -/
def c7now : DateTime := ⟨2023, 5, 0⟩

/-- January block of the three-month witness stream. -/
def cb1 : List Tx := [⟨"x1", 0, 0, ⟨2023, 1, 10⟩⟩, ⟨"x2", 1, 1, ⟨2023, 1, 20⟩⟩]

/-- February block of the three-month witness stream. -/
def cb2 : List Tx := [⟨"y1", 2, 2, ⟨2023, 2, 30⟩⟩]

/-- March block of the three-month witness stream. -/
def cb3 : List Tx := [⟨"z1", 3, 3, ⟨2023, 3, 40⟩⟩, ⟨"z2", 4, 4, ⟨2023, 3, 50⟩⟩]

/-- January 2023 record of the year-blind buffer. -/
def j1 : Tx := ⟨"j1", 0, 0, ⟨2023, 1, 100⟩⟩

/-- June 2023 record of the year-blind buffer. -/
def j2 : Tx := ⟨"j2", 1, 1, ⟨2023, 6, 200⟩⟩

/-- January 2024 record of the year-blind buffer: same month number as `j1`,
different year. -/
def j3 : Tx := ⟨"j3", 2, 2, ⟨2024, 1, 300⟩⟩

/-- First April record of the month-straddling completed cache. -/
def c5a1 : Tx := ⟨"p", 0, 0, ⟨2023, 4, 0⟩⟩

/-- Second April record of the month-straddling completed cache. -/
def c5a2 : Tx := ⟨"q", 1, 1, ⟨2023, 4, 1⟩⟩

/-- The May record of the month-straddling completed cache. -/
def c5b1 : Tx := ⟨"s", 2, 2, ⟨2023, 5, 2⟩⟩

/-- A completed two-partition cache whose trailing page straddles the
April-May month boundary. -/
def c5fsS : FS Tx := [(pname 2023 4, [c5a1, c5a2]), (pname 2023 5, [c5b1])]

/-- A provider serving exactly the straddling cache, in one short page. -/
def c5provS : Nat → List Tx :=
  fun p => ((allRecords c5fsS).drop ((p - 1) * 100) |>.take 100)

/-- The instant of the second run over the straddling cache. -/
def c5nowS : DateTime := ⟨2023, 5, 52⟩

/-- The month-block decomposition of the straddling trailing page. -/
def c5gs : List (List Tx) := [[c5a1, c5a2], [c5b1]]

/-- January 2023 record of the year-blind completed cache. -/
def yb1 : Tx := ⟨"y1", 0, 0, ⟨2023, 1, 0⟩⟩

/-- January 2024 record of the year-blind completed cache: same month number
as `yb1` in a different year, cached in its own partition. -/
def yb2 : Tx := ⟨"y2", 1, 1, ⟨2024, 1, 10⟩⟩

/-- A completed cache whose trailing page repeats a month number across
years: one January 2023 partition and one January 2024 partition, as
successive incremental runs of the code produce. -/
def ybfs : FS Tx := [(pname 2023 1, [yb1]), (pname 2024 1, [yb2])]

/-- A provider serving exactly the year-blind cache, in one short page. -/
def ybprov : Nat → List Tx :=
  fun p => ((allRecords ybfs).drop ((p - 1) * 100) |>.take 100)

/-- The instant of the second run over the year-blind cache. -/
def ybnow : DateTime := ⟨2024, 1, 20⟩

/-! Helper lemmas. -/

lemma rateStep_some (a e : ℚ) (n : Nat) :
    rateStep a (some e) n
      = if a - (n : ℚ) + e * 10 < 0
        then (a - (n : ℚ) + e * 10 + 5 * (n : ℚ) / 10 * 10, 5 * (n : ℚ) / 10)
        else (a - (n : ℚ) + e * 10, 0) := rfl

/-- C9: with no reference cache for the identifier, the detail flow returns a
zero call count and leaves the utxo directory untouched — a soft no-op rather
than an error. -/
theorem c9_missing_reference_cache_soft_noop (ufs : FS URow) (getU : String → List Nat)
    (maxCalls cpu : Nat) (elapsed : Nat → ℚ) :
    cacheUtxos [] ufs getU maxCalls cpu elapsed = some (0, ufs) := rfl

/-- C6: on every batch of `n` calls after the first, the limiter credits the
balance by `elapsed * 10` with no clamp at the burst capacity 500 (the balance
can exceed 500, second conjunct), deducts `n`, and when the result is negative
pauses exactly `5 * n / 10` seconds; the limiter state never changes what an
iteration fetches, stores, or counts (third conjunct), so hitting the limit
never aborts the run. -/
theorem c6_rate_limiter_semantics (a e : ℚ) (n : Nat) :
    (rateStep a (some e) n
      = if a + e * 10 - (n : ℚ) < 0
        then (a + e * 10 - (n : ℚ) + 5 * (n : ℚ), 5 * (n : ℚ) / 10)
        else (a + e * 10 - (n : ℚ), 0))
    ∧ (500 : ℚ) < (rateStep 500 (some 100) 1).1
    ∧ ∀ (provider : Nat → List Tx) (elapsed : Nat → ℚ) (maxCalls : Nat)
        (s : FetchState) (q : ℚ),
        (fetchIter provider elapsed maxCalls { s with callsAllowed := q }).numCalls
            = (fetchIter provider elapsed maxCalls s).numCalls
        ∧ (fetchIter provider elapsed maxCalls { s with callsAllowed := q }).transactions
            = (fetchIter provider elapsed maxCalls s).transactions
        ∧ (fetchIter provider elapsed maxCalls { s with callsAllowed := q }).store
            = (fetchIter provider elapsed maxCalls s).store
        ∧ (fetchIter provider elapsed maxCalls { s with callsAllowed := q }).done
            = (fetchIter provider elapsed maxCalls s).done
        ∧ (fetchIter provider elapsed maxCalls { s with callsAllowed := q }).page
            = (fetchIter provider elapsed maxCalls s).page := by
  refine ⟨?_, by norm_num [rateStep], fun provider elapsed maxCalls s q =>
    ⟨rfl, rfl, rfl, rfl, rfl⟩⟩
  rw [rateStep_some]
  split_ifs with h1 h2
  · have : 5 * (n : ℚ) / 10 * 10 = 5 * (n : ℚ) := by ring
    rw [this]
    exact congrArg (fun z => (z + 5 * (n : ℚ), 5 * (n : ℚ) / 10)) (by ring)
  · exact absurd (by linarith) h2
  · exact absurd (by linarith) h1
  · exact congrArg (fun z => (z, (0 : ℚ))) (by ring)

/-- C8: the resume page is `len(cache) / 100 + 1` whenever cache files exist,
and page 1 with a core-count batch size whenever none do. -/
theorem c8_resume_start_page (fs : FS Tx) (now : DateTime) (cpu : Nat) (hcpu : 1 ≤ cpu) :
    (resumePlan fs now cpu).1
        = (if fs = [] then 1 else (allRecords fs).length / 100 + 1)
    ∧ (fs = [] → planGuard (resumePlan fs now cpu).2 = ((cpu : Nat) : Int)) := by
  constructor
  · by_cases h : fs = [] <;> simp [resumePlan, h]
  · intro h
    subst h
    have hne : ((cpu : Nat) : Int) ≠ 0 := by
      exact_mod_cast Nat.one_le_iff_ne_zero.mp hcpu
    simp [resumePlan, planGuard, hne]

theorem c8_resume_start_page_witness :
    ((resumePlan [] c7now 4).1
        = (if ([] : FS Tx) = [] then 1 else (allRecords ([] : FS Tx)).length / 100 + 1))
    ∧ (([] : FS Tx) = [] → planGuard (resumePlan [] c7now 4).2 = ((4 : Nat) : Int)) :=
  c8_resume_start_page [] c7now 4 (by decide)

lemma fsGet_fsWrite {α : Type} (fs : FS α) (p q : PName) (c : List α) :
    fsGet q (fsWrite fs p c) = if p = q then some c else fsGet q fs := by
  induction fs with
  | nil => simp [fsWrite, fsGet]
  | cons e rest ih =>
    simp only [fsWrite]
    by_cases hep : e.1 = p
    · rw [if_pos hep]
      simp only [fsGet]
      by_cases hpq : p = q
      · simp [hpq]
      · have heq : ¬ e.1 = q := fun h => hpq (hep.symm.trans h)
        simp [hpq, heq]
    · rw [if_neg hep]
      simp only [fsGet]
      by_cases heq : e.1 = q
      · have hpq : ¬ p = q := fun h => hep (heq.trans h.symm)
        simp [heq, hpq]
      · simp [heq, ih]

lemma fsGet_fsUnlink {α : Type} (fs : FS α) (p q : PName) :
    fsGet q (fsUnlink fs p) = if p = q then none else fsGet q fs := by
  induction fs with
  | nil => simp [fsUnlink, fsGet]
  | cons e rest ih =>
    simp only [fsUnlink]
    by_cases hep : e.1 = p
    · rw [if_pos hep]
      rw [ih]
      by_cases hpq : p = q
      · simp [hpq]
      · have heq : ¬ e.1 = q := fun h => hpq (hep.symm.trans h)
        simp [fsGet, hpq, heq]
    · rw [if_neg hep]
      simp only [fsGet]
      by_cases heq : e.1 = q
      · have hpq : ¬ p = q := fun h => hep (heq.trans h.symm)
        simp [heq, hpq]
      · simp [heq, ih]

lemma fsGet_mergeWrite_self {α : Type} (fs : FS α) (path tmp : PName) (c : List α)
    (hne : ¬ path = tmp) :
    fsGet path (mergeWrite fs path tmp c) = some c := by
  have h1 : fsGet tmp (fsUnlink (fsWrite fs tmp c) path) = some c := by
    rw [fsGet_fsUnlink, if_neg hne, fsGet_fsWrite, if_pos rfl]
  unfold mergeWrite fsRename
  rw [h1, fsGet_fsWrite, if_pos rfl]

lemma tmpOf_ne {nm : PName} (h : nm.temp = false) : ¬ nm = tmpOf nm := by
  intro heq
  have : nm.temp = true := by rw [heq]; rfl
  rw [h] at this
  exact Bool.false_ne_true this

/-- C3 (amended): merging into an existing monthly partition loads it, keeps
only incoming records strictly newer than its tail timestamp, and rewrites the
partition as old records followed by the kept ones only when the kept set is
non-empty (first conjunct); the rewrite passes through a temporary file, but
because `path.unlink()` runs before `tmp_path.rename(path)`, an intermediate
state exists where the partition path holds no file at all — at every point of
the trace the path holds the complete old contents, the complete new contents,
or nothing while the temporary file holds the complete new contents (second
conjunct). -/
theorem c3_merge_rewrite_amended (store : FS Tx) (nm : PName) (old rows : List Tx)
    (hold : fsGet nm store = some old) (htemp : nm.temp = false) :
    (fsGet nm (partitionMerge (fun r => r.time.sec) store nm rows)
      = some (if (rows.filter (fun r => (old.getLastD default).time.sec < r.time.sec)).length = 0
              then old
              else old ++ rows.filter (fun r => (old.getLastD default).time.sec < r.time.sec)))
    ∧ ∀ s ∈ mergeTrace store nm (tmpOf nm)
          (old ++ rows.filter (fun r => (old.getLastD default).time.sec < r.time.sec)),
        fsGet nm s = some old
        ∨ fsGet nm s
            = some (old ++ rows.filter (fun r => (old.getLastD default).time.sec < r.time.sec))
        ∨ (fsGet nm s = none
            ∧ fsGet (tmpOf nm) s
                = some (old ++ rows.filter (fun r => (old.getLastD default).time.sec < r.time.sec))) := by
  have hne : ¬ nm = tmpOf nm := tmpOf_ne htemp
  constructor
  · simp only [partitionMerge, hold]
    by_cases hF : (rows.filter (fun r => (old.getLastD default).time.sec < r.time.sec)).length = 0
    · rw [if_neg (by omega), if_pos hF]
      exact hold
    · rw [if_pos (by omega), if_neg hF]
      exact fsGet_mergeWrite_self store nm (tmpOf nm)
        (old ++ rows.filter (fun r => (old.getLastD default).time.sec < r.time.sec)) hne
  · intro s hs
    simp only [mergeTrace, List.mem_cons, List.not_mem_nil, or_false] at hs
    rcases hs with h | h | h | h
    · subst h; exact Or.inl hold
    · subst h
      left
      rw [fsGet_fsWrite, if_neg (fun heq => hne heq.symm)]
      exact hold
    · subst h
      right; right
      constructor
      · rw [fsGet_fsUnlink, if_pos rfl]
      · rw [fsGet_fsUnlink, if_neg hne, fsGet_fsWrite, if_pos rfl]
    · subst h
      right; left
      exact fsGet_mergeWrite_self store nm (tmpOf nm) _ hne

theorem c3_merge_rewrite_amended_witness :
    (fsGet (pname 2023 1) (partitionMerge (fun r => r.time.sec) c3fs (pname 2023 1) [c3r2])
      = some (if ([c3r2].filter
                  (fun r => (([c3r1] : List Tx).getLastD default).time.sec < r.time.sec)).length = 0
              then [c3r1]
              else [c3r1] ++ [c3r2].filter
                  (fun r => (([c3r1] : List Tx).getLastD default).time.sec < r.time.sec)))
    ∧ ∀ s ∈ mergeTrace c3fs (pname 2023 1) (tmpOf (pname 2023 1))
          ([c3r1] ++ [c3r2].filter
              (fun r => (([c3r1] : List Tx).getLastD default).time.sec < r.time.sec)),
        fsGet (pname 2023 1) s = some [c3r1]
        ∨ fsGet (pname 2023 1) s
            = some ([c3r1] ++ [c3r2].filter
                (fun r => (([c3r1] : List Tx).getLastD default).time.sec < r.time.sec))
        ∨ (fsGet (pname 2023 1) s = none
            ∧ fsGet (tmpOf (pname 2023 1)) s
                = some ([c3r1] ++ [c3r2].filter
                    (fun r => (([c3r1] : List Tx).getLastD default).time.sec < r.time.sec))) :=
  c3_merge_rewrite_amended c3fs (pname 2023 1) [c3r1] [c3r2] (by decide) rfl

/-- C3 counterexample: in the concrete merge of a one-record January partition
with one strictly newer record, the directory state reached after
`path.unlink()` and before `tmp_path.rename(path)` belongs to the rewrite
trace, yet at that state the partition path holds neither the old nor the new
contents — it holds nothing, while only the temporary file carries the data.
A crash there loses the partition path entirely, refuting the claimed
old-or-new guarantee. -/
theorem c3_unlink_window_counterexample :
    partitionMerge (fun r => r.time.sec) c3fs (pname 2023 1) [c3r2]
        = mergeWrite c3fs (pname 2023 1) (tmpOf (pname 2023 1)) c3new
    ∧ c3mid ∈ mergeTrace c3fs (pname 2023 1) (tmpOf (pname 2023 1)) c3new
    ∧ fsGet (pname 2023 1) c3mid = none
    ∧ ¬ (fsGet (pname 2023 1) c3mid = some [c3r1]
          ∨ fsGet (pname 2023 1) c3mid = some c3new) := by
  decide

lemma mem_getLastD {α : Type} (x : α) (rest : List α) : rest.getLastD x ∈ x :: rest := by
  cases rest with
  | nil => simp [List.getLastD]
  | cons y t =>
    rw [List.getLastD_eq_getLast?, List.getLast?_eq_getLast (y :: t) (by simp)]
    exact List.mem_cons_of_mem x (List.getLast_mem (by simp))

lemma getLastD_append_cons {α : Type} (l1 : List α) (z : α) (l2 : List α) (d : α) :
    (l1 ++ z :: l2).getLastD d = l2.getLastD z := by
  rw [List.getLastD_eq_getLast?, List.getLast?_append_cons]
  rw [List.getLast?_eq_getLast (z :: l2) (by simp)]
  rw [Option.getD_some]
  induction l2 generalizing z with
  | nil => simp [List.getLastD]
  | cons w t ih => simp [List.getLast_cons, List.getLastD, ih]

lemma cacheIndex_uniform {α : Type} (tm : α → DateTime) (x : α) (rest : List α)
    (h : (tm x).month = (tm (rest.getLastD x)).month) :
    cacheIndex tm (x :: rest) = (x :: rest).length := by
  simp [cacheIndex, h]

lemma firstMonthChange_append {α : Type} (tm : α → DateTime) (m : Nat) :
    ∀ (b : List α) (z : α) (rest : List α), b ≠ [] → (∀ r ∈ b, (tm r).month = m) →
      ¬ (tm z).month = m →
      firstMonthChange tm (b ++ z :: rest) = some b.length := by
  intro b
  induction b with
  | nil => intro z rest h; exact absurd rfl h
  | cons x t ih =>
    intro z rest _ hub hz
    cases t with
    | nil =>
      have hx : (tm x).month = m := hub x (by simp)
      have hxz : ¬ (tm x).month = (tm z).month := fun h => hz (h.symm.trans hx)
      simp [firstMonthChange, hxz]
    | cons y t' =>
      have hx : (tm x).month = m := hub x (by simp)
      have hy : (tm y).month = m := hub y (by simp)
      have hxy : (tm x).month = (tm y).month := hx.trans hy.symm
      have ihr := ih z rest (by simp) (fun r hr => hub r (List.mem_cons_of_mem x hr)) hz
      rw [List.cons_append]
      rw [List.cons_append] at ihr ⊢
      simp only [firstMonthChange, if_pos hxy]
      rw [ihr]
      simp

lemma cacheIndex_split {α : Type} (tm : α → DateTime) (m : Nat) (b : List α) (z : α)
    (rest : List α) (hb : b ≠ []) (hub : ∀ r ∈ b, (tm r).month = m)
    (hz : ¬ (tm z).month = m) (hlast : ¬ (tm (rest.getLastD z)).month = m) :
    cacheIndex tm (b ++ z :: rest) = b.length := by
  obtain ⟨x, t, rfl⟩ : ∃ x t, b = x :: t := by
    cases b with
    | nil => exact absurd rfl hb
    | cons x t => exact ⟨x, t, rfl⟩
  have hx : (tm x).month = m := hub x (by simp)
  have hguard : ¬ (tm x).month = (tm ((t ++ z :: rest).getLastD x)).month := by
    rw [getLastD_append_cons]
    intro h
    exact hlast (h.symm.trans hx)
  have hfmc := firstMonthChange_append tm m (x :: t) z rest (by simp) hub hz
  rw [List.cons_append]
  simp only [cacheIndex, if_neg hguard]
  rw [← List.cons_append, hfmc]

lemma firstMonthChange_pos {α : Type} (tm : α → DateTime) :
    ∀ (l : List α) (i : Nat), firstMonthChange tm l = some i → 1 ≤ i := by
  intro l
  induction l with
  | nil => intro i h; simp [firstMonthChange] at h
  | cons x t ih =>
    intro i h
    cases t with
    | nil => simp [firstMonthChange] at h
    | cons y t' =>
      by_cases hxy : (tm x).month = (tm y).month
      · simp only [firstMonthChange, if_pos hxy] at h
        cases hfmc : firstMonthChange tm (y :: t') with
        | none => rw [hfmc] at h; simp at h
        | some j => rw [hfmc] at h; simp at h; omega
      · simp only [firstMonthChange, if_neg hxy, Option.some_inj] at h
        omega

lemma fsWrite_of_fsGet_none {α : Type} (fs : FS α) (p : PName) (c : List α)
    (h : fsGet p fs = none) : fsWrite fs p c = fs ++ [(p, c)] := by
  induction fs with
  | nil => rfl
  | cons e rest ih =>
    simp only [fsGet] at h
    by_cases hep : e.1 = p
    · rw [if_pos hep] at h
      exact absurd h (by simp)
    · rw [if_neg hep] at h
      simp [fsWrite, hep, ih h]

lemma flushGo_nil {α β : Type} (tm : α → DateTime) (step : FS β → List α → List α × FS β)
    (fuel : Nat) (store : FS β) :
    flushGo tm step fuel store [] = (store, []) := by
  cases fuel <;> rfl

lemma flushGo_stop {α β : Type} (tm : α → DateTime) (step : FS β → List α → List α × FS β)
    (fuel : Nat) (store : FS β) (x : α) (rest : List α)
    (h : (tm x).month = (tm (rest.getLastD x)).month) :
    flushGo tm step fuel store (x :: rest) = (store, x :: rest) := by
  cases fuel with
  | zero => rfl
  | succ f =>
    simp only [flushGo]
    rw [if_pos h]

lemma flushGo_step {α β : Type} (tm : α → DateTime) (step : FS β → List α → List α × FS β)
    (fuel : Nat) (store : FS β) (x : α) (rest : List α)
    (h : ¬ (tm x).month = (tm (rest.getLastD x)).month) :
    flushGo tm step (fuel + 1) store (x :: rest)
      = flushGo tm step fuel (step store (x :: rest)).2 (step store (x :: rest)).1 := by
  simp only [flushGo]
  rw [if_neg h]

lemma cacheStep_block (store : FS Tx) (y m : Nat) (b : List Tx) (z : Tx) (rest : List Tx)
    (hb : b ≠ []) (hub : ∀ r ∈ b, r.time.year = y ∧ r.time.month = m)
    (hz : ¬ z.time.month = m) (hlast : ¬ (rest.getLastD z).time.month = m)
    (hfresh : fsGet (pname y m) store = none) :
    cacheStep store (b ++ z :: rest) = (z :: rest, store ++ [(pname y m, b)]) := by
  have hidx : cacheIndex Tx.time (b ++ z :: rest) = b.length :=
    cacheIndex_split Tx.time m b z rest hb (fun r hr => (hub r hr).2) hz hlast
  obtain ⟨x, t, rfl⟩ : ∃ x t, b = x :: t := by
    cases b with
    | nil => exact absurd rfl hb
    | cons x t => exact ⟨x, t, rfl⟩
  have hx := hub x (by simp)
  rw [List.cons_append]
  simp only [cacheStep]
  rw [← List.cons_append, hidx, List.take_left, List.drop_left]
  have hnm : (⟨cacheName x.time.year x.time.month, false⟩ : PName) = pname y m := by
    rw [hx.1, hx.2]; rfl
  rw [hnm]
  simp only [partitionMerge, hfresh]
  rw [fsWrite_of_fsGet_none store (pname y m) (x :: t) hfresh]

lemma cacheStep_whole (store : FS Tx) (y m : Nat) (x : Tx) (rest : List Tx)
    (hub : ∀ r ∈ x :: rest, r.time.year = y ∧ r.time.month = m)
    (hfresh : fsGet (pname y m) store = none) :
    cacheStep store (x :: rest) = ([], store ++ [(pname y m, x :: rest)]) := by
  have hm : (Tx.time x).month = ((Tx.time (rest.getLastD x))).month := by
    rw [(hub x (by simp)).2, (hub (rest.getLastD x) (mem_getLastD x rest)).2]
  have hidx := cacheIndex_uniform Tx.time x rest hm
  simp only [cacheStep]
  rw [hidx, List.take_length, List.drop_length]
  have hnm : (⟨cacheName x.time.year x.time.month, false⟩ : PName) = pname y m := by
    rw [(hub x (by simp)).1, (hub x (by simp)).2]; rfl
  rw [hnm]
  simp only [partitionMerge, hfresh]
  rw [fsWrite_of_fsGet_none store (pname y m) (x :: rest) hfresh]

lemma flushGo_block (fuel : Nat) (store : FS Tx) (y m : Nat) (b : List Tx) (z : Tx)
    (rest : List Tx) (hb : b ≠ []) (hub : ∀ r ∈ b, r.time.year = y ∧ r.time.month = m)
    (hz : ¬ z.time.month = m) (hlast : ¬ (rest.getLastD z).time.month = m)
    (hfresh : fsGet (pname y m) store = none) :
    flushGo Tx.time cacheStep (fuel + 1) store (b ++ z :: rest)
      = flushGo Tx.time cacheStep fuel (store ++ [(pname y m, b)]) (z :: rest) := by
  obtain ⟨x, t, rfl⟩ : ∃ x t, b = x :: t := by
    cases b with
    | nil => exact absurd rfl hb
    | cons x t => exact ⟨x, t, rfl⟩
  have hx := hub x (by simp)
  have hguard : ¬ (Tx.time x).month = ((Tx.time ((t ++ z :: rest).getLastD x))).month := by
    rw [getLastD_append_cons]
    intro h
    exact hlast (h.symm.trans hx.2)
  rw [List.cons_append, flushGo_step Tx.time cacheStep fuel store x (t ++ z :: rest) hguard,
    ← List.cons_append,
    cacheStep_block store y m (x :: t) z rest hb hub hz hlast hfresh]

/-- C10: month-boundary detection compares only the month number, never the
year.  A non-empty buffer whose first and last records share a month number is
never split — the flush loop returns it untouched — and the end-of-run flush
writes the entire buffer, records of every intervening month included, to the
single partition file named by the first record's year and month. -/
theorem c10_year_blind_month_split (store : FS Tx) (x : Tx) (rest : List Tx)
    (hm : x.time.month = (rest.getLastD x).time.month)
    (hfresh : fsGet ⟨cacheName x.time.year x.time.month, false⟩ store = none) :
    txFlushLoop store (x :: rest) = (store, x :: rest)
    ∧ flushRun store (x :: rest)
        = store ++ [(⟨cacheName x.time.year x.time.month, false⟩, x :: rest)] := by
  have h1 : txFlushLoop store (x :: rest) = (store, x :: rest) :=
    flushGo_stop Tx.time cacheStep (x :: rest).length store x rest hm
  refine ⟨h1, ?_⟩
  unfold flushRun
  rw [h1]
  rw [if_neg (by simp)]
  simp only [cacheStep]
  rw [cacheIndex_uniform Tx.time x rest hm, List.take_length]
  simp only [partitionMerge, hfresh]
  exact fsWrite_of_fsGet_none store _ (x :: rest) hfresh

theorem c10_year_blind_month_split_witness :
    txFlushLoop [] [j1, j2, j3] = ([], [j1, j2, j3])
    ∧ flushRun [] [j1, j2, j3]
        = [] ++ [(⟨cacheName j1.time.year j1.time.month, false⟩, [j1, j2, j3])] :=
  c10_year_blind_month_split [] j1 [j2, j3] (by decide) (by decide)

/-- C4: a time-ordered buffer spanning three calendar months is split at each
month boundary — the flush loop writes the two leading completed months and
leaves the trailing month pending, which the end-of-run flush then writes —
producing exactly three partition files, each holding exactly the records of
its own (year, month), each internally time-ordered. -/
theorem c4_three_month_partitions (y1 m1 y2 m2 y3 m3 : Nat) (b1 b2 b3 : List Tx)
    (hb1 : b1 ≠ []) (hb2 : b2 ≠ []) (hb3 : b3 ≠ [])
    (hu1 : ∀ r ∈ b1, r.time.year = y1 ∧ r.time.month = m1)
    (hu2 : ∀ r ∈ b2, r.time.year = y2 ∧ r.time.month = m2)
    (hu3 : ∀ r ∈ b3, r.time.year = y3 ∧ r.time.month = m3)
    (hm12 : m1 ≠ m2) (hm23 : m2 ≠ m3) (hm13 : m1 ≠ m3)
    (hn12 : pname y1 m1 ≠ pname y2 m2) (hn13 : pname y1 m1 ≠ pname y3 m3)
    (hn23 : pname y2 m2 ≠ pname y3 m3)
    (hsort : List.Pairwise (fun a b => a.time.sec ≤ b.time.sec) (b1 ++ b2 ++ b3)) :
    flushRun [] (b1 ++ b2 ++ b3)
        = [(pname y1 m1, b1), (pname y2 m2, b2), (pname y3 m3, b3)]
    ∧ txFlushLoop [] (b1 ++ b2 ++ b3) = ([(pname y1 m1, b1), (pname y2 m2, b2)], b3)
    ∧ List.Pairwise (fun a b => a.time.sec ≤ b.time.sec) b1
    ∧ List.Pairwise (fun a b => a.time.sec ≤ b.time.sec) b2
    ∧ List.Pairwise (fun a b => a.time.sec ≤ b.time.sec) b3 := by
  have hp12 := List.pairwise_append.mp hsort
  have hp1 := List.pairwise_append.mp hp12.1
  obtain ⟨x2, t2, rfl⟩ : ∃ x t, b2 = x :: t := by
    cases b2 with
    | nil => exact absurd rfl hb2
    | cons x t => exact ⟨x, t, rfl⟩
  obtain ⟨x3, t3, rfl⟩ : ∃ x t, b3 = x :: t := by
    cases b3 with
    | nil => exact absurd rfl hb3
    | cons x t => exact ⟨x, t, rfl⟩
  have hz1 : ¬ x2.time.month = m1 := fun h => hm12 (((hu2 x2 (by simp)).2.symm.trans h).symm)
  have hlast1 : ¬ ((t2 ++ x3 :: t3).getLastD x2).time.month = m1 := by
    rw [getLastD_append_cons]
    intro h
    exact hm13 (((hu3 (t3.getLastD x3) (mem_getLastD x3 t3)).2.symm.trans h).symm)
  have hz2 : ¬ x3.time.month = m2 := fun h => hm23 (((hu3 x3 (by simp)).2.symm.trans h).symm)
  have hlast2 : ¬ (t3.getLastD x3).time.month = m2 := fun h =>
    hm23 (((hu3 (t3.getLastD x3) (mem_getLastD x3 t3)).2.symm.trans h).symm)
  have hg3 : (Tx.time x3).month = ((Tx.time (t3.getLastD x3))).month := by
    rw [(hu3 x3 (by simp)).2, (hu3 (t3.getLastD x3) (mem_getLastD x3 t3)).2]
  have hfresh2 : fsGet (pname y2 m2) ([] ++ [(pname y1 m1, b1)]) = none := by
    simp [fsGet, hn12]
  have hfresh3 :
      fsGet (pname y3 m3) ([] ++ [(pname y1 m1, b1)] ++ [(pname y2 m2, x2 :: t2)]) = none := by
    simp [fsGet, hn13, hn23]
  obtain ⟨k, hk⟩ : ∃ k, (b1 ++ (x2 :: t2 ++ x3 :: t3)).length = k + 1 + 1 := by
    have hl1 : 1 ≤ b1.length := List.length_pos.mpr hb1
    refine ⟨(b1 ++ (x2 :: t2 ++ x3 :: t3)).length - 2, ?_⟩
    simp only [List.length_append, List.length_cons]
    omega
  have hloop : txFlushLoop [] (b1 ++ (x2 :: t2 ++ x3 :: t3))
      = ([(pname y1 m1, b1), (pname y2 m2, x2 :: t2)], x3 :: t3) := by
    unfold txFlushLoop
    rw [hk, List.cons_append,
      flushGo_block (k + 1) [] y1 m1 b1 x2 (t2 ++ x3 :: t3) hb1 hu1 hz1 hlast1 rfl,
      ← List.cons_append,
      flushGo_block k ([] ++ [(pname y1 m1, b1)]) y2 m2 (x2 :: t2) x3 t3 (by simp) hu2 hz2
        hlast2 hfresh2,
      flushGo_stop Tx.time cacheStep k _ x3 t3 hg3]
    simp
  refine ⟨?_, by rw [List.append_assoc]; exact hloop, hp1.1, hp1.2.1, hp12.2.1⟩
  rw [List.append_assoc, flushRun, hloop]
  rw [if_neg (by simp)]
  rw [cacheStep_whole [(pname y1 m1, b1), (pname y2 m2, x2 :: t2)] y3 m3 x3 t3 hu3
    (by simpa using hfresh3)]
  simp

theorem c4_three_month_partitions_witness :
    (flushRun [] (cb1 ++ cb2 ++ cb3)
        = [(pname 2023 1, cb1), (pname 2023 2, cb2), (pname 2023 3, cb3)])
    ∧ txFlushLoop [] (cb1 ++ cb2 ++ cb3) = ([(pname 2023 1, cb1), (pname 2023 2, cb2)], cb3)
    ∧ List.Pairwise (fun a b => a.time.sec ≤ b.time.sec) cb1
    ∧ List.Pairwise (fun a b => a.time.sec ≤ b.time.sec) cb2
    ∧ List.Pairwise (fun a b => a.time.sec ≤ b.time.sec) cb3 :=
  c4_three_month_partitions 2023 1 2023 2 2023 3 cb1 cb2 cb3 (by decide) (by decide)
    (by decide) (by decide) (by decide) (by decide) (by decide) (by decide) (by decide)
    (by decide) (by decide) (by decide) (by decide)

lemma fetchIter_numCalls (provider : Nat → List Tx) (elapsed : Nat → ℚ) (maxCalls : Nat)
    (s : FetchState) :
    (fetchIter provider elapsed maxCalls s).numCalls = s.numCalls + dispatchSize maxCalls s :=
  rfl

lemma fetchLoop_numCalls_le (provider : Nat → List Tx) (elapsed : Nat → ℚ) (maxCalls : Nat) :
    ∀ (fuel : Nat) (s : FetchState), s.numCalls ≤ maxCalls →
      (fetchLoop provider elapsed maxCalls fuel s).numCalls ≤ maxCalls := by
  intro fuel
  induction fuel with
  | zero => intro s hs; exact hs
  | succ f ih =>
    intro s hs
    simp only [fetchLoop]
    by_cases hguard : s.done = false ∧ s.numCalls < maxCalls
    · rw [if_pos hguard]
      apply ih
      rw [fetchIter_numCalls]
      unfold dispatchSize
      split_ifs with h2 <;> omega
    · rw [if_neg hguard]
      exact hs

lemma utxoLoop_calls (getU : String → List Nat) (refs : List Tx) (elapsed : Nat → ℚ) :
    ∀ (chunks : List Nat) (pos numCalls : Nat) (buffer : List UItem) (store : FS URow)
      (allowed : ℚ) (started : Bool) (it : Nat),
      (utxoLoop getU refs elapsed chunks pos numCalls buffer store allowed started it).1
        = numCalls + chunks.sum := by
  intro chunks
  induction chunks with
  | nil =>
    intro pos numCalls buffer store allowed started it
    simp [utxoLoop]
  | cons c rest ih =>
    intro pos numCalls buffer store allowed started it
    simp only [utxoLoop]
    rw [ih]
    simp [List.sum_cons]
    omega

lemma chunkSizesGo_sum :
    ∀ (fuel total step : Nat), total ≤ fuel → 1 ≤ step →
      (chunkSizesGo fuel total step).sum = total := by
  intro fuel
  induction fuel with
  | zero =>
    intro total step h1 _
    simp only [chunkSizesGo, List.sum_nil]
    omega
  | succ f ih =>
    intro total step h1 h2
    by_cases ht : total = 0
    · simp [chunkSizesGo, ht]
    · simp only [chunkSizesGo, if_neg ht, List.sum_cons]
      rw [ih (total - min step total) step (by omega) h2]
      omega

/-- C1: for every pool and call budget, the reference flow and the detail flow
each return a call count bounded by the budget; the detail flow is additionally
bounded by the number of uncached transactions, and inside the reference loop
a batch that would overshoot the budget is dispatched at exactly the remaining
`max_calls - num_calls`. -/
theorem c1_budget_respect :
    (∀ (fs : FS Tx) (provider : Nat → List Tx) (now : DateTime) (cpu maxCalls : Nat)
        (elapsed : Nat → ℚ) (n : Nat) (st : FS Tx),
        cacheTransactions fs provider now cpu maxCalls elapsed = some (n, st) → n ≤ maxCalls)
    ∧ (∀ (rfs : FS Tx) (ufs : FS URow) (getU : String → List Nat) (maxCalls cpu : Nat)
        (elapsed : Nat → ℚ) (n : Nat) (st : FS URow),
        cacheUtxos rfs ufs getU maxCalls cpu elapsed = some (n, st) →
          n ≤ maxCalls ∧ n ≤ (uncachedRefs rfs ufs).length)
    ∧ (∀ (maxCalls : Nat) (s : FetchState), s.numCalls < maxCalls →
        maxCalls < s.numCalls + s.callBatch →
        dispatchSize maxCalls s = maxCalls - s.numCalls) := by
  refine ⟨?_, ?_, ?_⟩
  · intro fs provider now cpu maxCalls elapsed n st h
    simp only [cacheTransactions] at h
    split at h
    · exact absurd h (by simp)
    · simp only [Option.some_inj, Prod.mk.injEq] at h
      rw [← h.1]
      exact fetchLoop_numCalls_le provider elapsed maxCalls maxCalls _ (Nat.zero_le _)
  · intro rfs ufs getU maxCalls cpu elapsed n st h
    simp only [cacheUtxos] at h
    split at h
    · simp only [Option.some_inj, Prod.mk.injEq] at h
      rw [← h.1]
      exact ⟨Nat.zero_le _, Nat.zero_le _⟩
    · split at h
      · exact absurd h (by simp)
      · rename_i hrfs hcpu
        simp only [Option.some_inj, Prod.mk.injEq] at h
        rw [← h.1, utxoLoop_calls,
          chunkSizesGo_sum _ _ _ (le_refl _) (Nat.one_le_iff_ne_zero.mpr hcpu)]
        exact ⟨by omega, by
          have := Nat.min_le_right maxCalls (uncachedRefs rfs ufs).length
          omega⟩
  · intro maxCalls s h1 h2
    unfold dispatchSize
    rw [if_pos h2]

theorem c1_budget_respect_witness :
    ((1 : Nat) ≤ 5)
    ∧ ((0 : Nat) ≤ 7 ∧ (0 : Nat) ≤ (uncachedRefs [] []).length)
    ∧ dispatchSize 3 ⟨false, 2, 1, 5, 0, false, 0, [], []⟩ = 3 - 2 :=
  ⟨c1_budget_respect.1 [] provEmpty c7now 1 5 zeroElapsed 1 [] (by decide),
   c1_budget_respect.2.1 [] [] getUEmpty 7 1 zeroElapsed 0 [] (by decide),
   c1_budget_respect.2.2 3 ⟨false, 2, 1, 5, 0, false, 0, [], []⟩ (by decide) (by decide)⟩

lemma cacheTransactions_run (fs : FS Tx) (provider : Nat → List Tx) (now : DateTime)
    (cpu maxCalls : Nat) (elapsed : Nat → ℚ) (cb : Int)
    (hcb : planGuard (resumePlan fs now cpu).2 = cb) :
    cacheTransactions fs provider now cpu maxCalls elapsed
      = if cb < 0 then none
        else
          some ((fetchLoop provider elapsed maxCalls maxCalls
              ⟨false, 0, (resumePlan fs now cpu).1, cb.toNat, 500, false, 0, [], fs⟩).numCalls,
            if (fetchLoop provider elapsed maxCalls maxCalls
                ⟨false, 0, (resumePlan fs now cpu).1, cb.toNat, 500, false, 0, [], fs⟩).transactions
                = ([] : List Tx)
            then (fetchLoop provider elapsed maxCalls maxCalls
                ⟨false, 0, (resumePlan fs now cpu).1, cb.toNat, 500, false, 0, [], fs⟩).store
            else (cacheStep (fetchLoop provider elapsed maxCalls maxCalls
                ⟨false, 0, (resumePlan fs now cpu).1, cb.toNat, 500, false, 0, [], fs⟩).store
              (fetchLoop provider elapsed maxCalls maxCalls
                ⟨false, 0, (resumePlan fs now cpu).1, cb.toNat, 500, false, 0, [], fs⟩).transactions).2) := by
  subst hcb
  rfl

set_option maxRecDepth 8000 in
/-- C2 (amended): in the specification scenario — empty cache, provider pages
of 100, 100 and 50 records followed by empty pages, `max_calls = 10` — the run
caches exactly the 250 records with all hashes unique, but the number of calls
issued is fixed by the dispatch batch size, the platform core count: with 2
cores the run issues exactly 4 calls (3 data pages plus 1 terminal page). -/
theorem c2_scenario_amended :
    cacheTransactions [] prov250 dt400 2 10 zeroElapsed = some (4, [(pname 2023 5, s250)])
    ∧ (List.map Tx.tx_hash s250).Nodup
    ∧ s250.length = 250
    ∧ (prov250 1).length = 100 ∧ (prov250 2).length = 100 ∧ (prov250 3).length = 50
    ∧ prov250 4 = [] := by
  refine ⟨rfl, ?_, rfl, rfl, rfl, rfl, rfl⟩
  have h : List.map Tx.tx_hash s250
      = List.map (fun i => String.mk (List.replicate i 'a')) (List.range 250) := by
    simp [s250, List.map_map]
  rw [h]
  refine List.Nodup.map ?_ (List.nodup_range 250)
  intro i j hij
  have h2 : List.replicate i 'a' = List.replicate j 'a' := by injection hij
  have h3 := congrArg List.length h2
  simpa using h3

set_option maxRecDepth 8000 in
/-- C2 counterexample: the very same scenario run on a platform with 8 cores
issues 8 calls, not 4, although `max_calls = 10` forces no truncation — the
claimed call count of exactly 4 does not hold on the code, whose first batch
already spans 8 pages. -/
theorem c2_scenario_counterexample :
    (cacheTransactions [] prov250 dt400 8 10 zeroElapsed).map Prod.fst = some 8
    ∧ ¬ (cacheTransactions [] prov250 dt400 8 10 zeroElapsed).map Prod.fst = some 4 := by
  refine ⟨rfl, ?_⟩
  intro h
  rw [show (cacheTransactions [] prov250 dt400 8 10 zeroElapsed).map Prod.fst = some 8
    from rfl] at h
  simp at h

lemma sec_le_of_getLast? :
    ∀ (l : List Tx), List.Pairwise (fun a b => a.time.sec ≤ b.time.sec) l →
      ∀ x ∈ l, ∀ z, l.getLast? = some z → x.time.sec ≤ z.time.sec := by
  intro l
  induction l with
  | nil => intro _ x hx; simp at hx
  | cons a t ih =>
    intro hp x hx z hz
    cases t with
    | nil =>
      simp at hx hz
      rw [hx, ← hz]
    | cons b t' =>
      rw [List.getLast?_cons_cons] at hz
      have hzmem : z ∈ b :: t' := List.mem_of_mem_getLast? hz
      rcases List.mem_cons.mp hx with rfl | hx'
      · exact (List.pairwise_cons.mp hp).1 z hzmem
      · exact ih (List.pairwise_cons.mp hp).2 x hx' z hz

lemma headD_mem {α : Type} (l : List α) (d : α) (h : l ≠ []) : l.headD d ∈ l := by
  cases l with
  | nil => exact absurd rfl h
  | cons x t => simp [List.headD]

lemma getLastD_mem {α : Type} (l : List α) (d : α) (h : l ≠ []) : l.getLastD d ∈ l := by
  cases l with
  | nil => exact absurd rfl h
  | cons x t =>
    rw [List.getLastD_cons]
    exact mem_getLastD x t

lemma getLastD_eq_of_getLast? {α : Type} (l : List α) (d z : α) (h : l.getLast? = some z) :
    l.getLastD d = z := by
  rw [List.getLastD_eq_getLast?, h, Option.getD_some]

lemma estWindow_subset (cache : List Tx) (now : DateTime) :
    ∀ r ∈ estWindow cache now, r ∈ cache := by
  intro r hr
  simp only [estWindow] at hr
  split at hr
  · exact hr
  · exact List.mem_of_mem_filter hr

lemma estWindow_pairwise (cache : List Tx) (now : DateTime)
    (hp : List.Pairwise (fun a b => a.time.sec ≤ b.time.sec) cache) :
    List.Pairwise (fun a b => a.time.sec ≤ b.time.sec) (estWindow cache now) := by
  simp only [estWindow]
  split
  · exact hp
  · exact hp.filter _

lemma headD_sec_le_getLastD (w : List Tx)
    (hp : List.Pairwise (fun a b => a.time.sec ≤ b.time.sec) w) (hw : w ≠ []) :
    (w.headD default).time.sec ≤ (w.getLastD default).time.sec := by
  obtain ⟨z, hz⟩ : ∃ z, w.getLast? = some z := by
    cases w with
    | nil => exact absurd rfl hw
    | cons x t => exact ⟨_, List.getLast?_eq_getLast (x :: t) (by simp)⟩
  rw [getLastD_eq_of_getLast? w default z hz]
  exact sec_le_of_getLast? w hp (w.headD default) (headD_mem w default hw) z hz

lemma estimateBatch_nonneg (cache : List Tx) (now : DateTime) (cpu : Nat)
    (hsort : List.Pairwise (fun a b => a.time.sec ≤ b.time.sec) cache)
    (hle : ∀ r ∈ cache, r.time.sec ≤ now.sec) :
    0 ≤ estimateBatch cache now cpu := by
  simp only [estimateBatch]
  by_cases h1 : (estWindow cache now).length ≤ 1
  · rw [if_pos h1]
    norm_num
  · rw [if_neg h1]
    by_cases h2 : ((((estWindow cache now).getLastD default).time.sec
        - ((estWindow cache now).headD default).time.sec : Int) : ℚ) = 0
    · rw [if_pos h2]
      norm_num
    · rw [if_neg h2]
      refine le_min (Int.natCast_nonneg cpu) (Int.floor_nonneg.mpr ?_)
      have hwne : estWindow cache now ≠ [] := by
        intro h
        rw [h] at h1
        simp at h1
      have hlastmem := getLastD_mem (estWindow cache now) default hwne
      have hsec := headD_sec_le_getLastD (estWindow cache now)
        (estWindow_pairwise cache now hsort) hwne
      have htp : (0 : ℚ) ≤ ((((estWindow cache now).getLastD default).time.sec
          - ((estWindow cache now).headD default).time.sec : Int) : ℚ) := by
        have : (0 : Int) ≤ (((estWindow cache now).getLastD default).time.sec
            - ((estWindow cache now).headD default).time.sec) := by omega
        exact_mod_cast this
      have hlast_now : ((estWindow cache now).getLastD default).time.sec ≤ now.sec :=
        hle _ (estWindow_subset cache now _ hlastmem)
      have htd : (0 : ℚ) ≤ ((now.sec
          - ((estWindow cache now).getLastD default).time.sec : Int) : ℚ) := by
        have : (0 : Int) ≤ now.sec - ((estWindow cache now).getLastD default).time.sec := by
          omega
        exact_mod_cast this
      have hlen : (0 : ℚ) ≤ ((estWindow cache now).length : ℚ) := by positivity
      exact div_nonneg (mul_nonneg htd (div_nonneg hlen htp)) (by norm_num)

/-- C7 (amended): over a time-ordered cache whose records do not postdate the
run instant, the batch size finally used is at least 1, and whenever the
estimation window spans a non-zero time period the code batch estimate equals
the specification formula
`min(available_concurrency, floor(time_since_last * tps / page_size))` with
its two fallbacks.  The positivity claim fails without the added hypothesis
that the cache tail does not postdate `now`, as the counterexample shows. -/
theorem c7_batch_estimate_amended (cache : List Tx) (now : DateTime) (cpu : Nat)
    (hsort : List.Pairwise (fun a b => a.time.sec ≤ b.time.sec) cache)
    (hle : ∀ r ∈ cache, r.time.sec ≤ now.sec) :
    1 ≤ planGuard (estimateBatch cache now cpu)
    ∧ (((estWindow cache now).headD default).time.sec
          ≠ ((estWindow cache now).getLastD default).time.sec →
        estimateBatch cache now cpu = specBatchSize cache now cpu) := by
  constructor
  · have h0 := estimateBatch_nonneg cache now cpu hsort hle
    unfold planGuard
    split_ifs with h <;> omega
  · intro hne
    have hlt : ∀ n : Nat, (n < 2) = (n ≤ 1) := fun n => propext (by omega)
    have htp : ((((estWindow cache now).getLastD default).time.sec
        - ((estWindow cache now).headD default).time.sec : Int) : ℚ) ≠ 0 := by
      have h0 : (((estWindow cache now).getLastD default).time.sec
          - ((estWindow cache now).headD default).time.sec : Int) ≠ 0 :=
        sub_ne_zero.mpr (fun h => hne h.symm)
      exact_mod_cast h0
    simp only [estWindow] at htp
    simp only [estimateBatch, specBatchSize, estWindow, hlt]
    rw [if_neg htp]

theorem c7_batch_estimate_amended_witness :
    1 ≤ planGuard (estimateBatch [c5tx1, c5tx2] c5now 8)
    ∧ (((estWindow [c5tx1, c5tx2] c5now).headD default).time.sec
          ≠ ((estWindow [c5tx1, c5tx2] c5now).getLastD default).time.sec →
        estimateBatch [c5tx1, c5tx2] c5now 8 = specBatchSize [c5tx1, c5tx2] c5now 8) :=
  c7_batch_estimate_amended [c5tx1, c5tx2] c5now 8 (by decide) (by decide)

/-- C7 counterexample: a cache whose two records are dated after the run
instant (`time_delta` negative) makes the code compute
`min(cpu_count, floor(time_delta * tps / 100)) = -1`; the `== 0` guard does
not catch the negative value, so the batch size reaching the dispatch layer is
below 1 and `ThreadPoolExecutor(call_batch)` raises — refuting the claim that
the batch size used is never 0 or less. -/
theorem c7_negative_batch_counterexample :
    estimateBatch [c7tx1, c7tx2] c7now 4 = -1
    ∧ planGuard (estimateBatch [c7tx1, c7tx2] c7now 4) = -1
    ∧ ¬ 1 ≤ planGuard (estimateBatch [c7tx1, c7tx2] c7now 4)
    ∧ cacheTransactions [(pname 2023 5, [c7tx1, c7tx2])] provEmpty c7now 4 10 zeroElapsed
        = none := by
  have hest : estimateBatch [c7tx1, c7tx2] c7now 4 = -1 := by
    norm_num [estimateBatch, estWindow, c7tx1, c7tx2, c7now, List.filter, min_def]
  have hall : allRecords [(pname 2023 5, [c7tx1, c7tx2])] = [c7tx1, c7tx2] := rfl
  have hplan : planGuard (resumePlan [(pname 2023 5, [c7tx1, c7tx2])] c7now 4).2 = -1 := by
    simp [resumePlan, planGuard, hall, hest]
  refine ⟨hest, ?_, ?_, ?_⟩
  · rw [hest]
    norm_num [planGuard]
  · rw [hest]
    norm_num [planGuard]
  · rw [cacheTransactions_run _ _ _ _ _ _ (-1) hplan]
    norm_num

lemma allRecords_append_single {α : Type} (init : FS α) (k : PName) (P : List α) :
    allRecords (init ++ [(k, P)]) = allRecords init ++ P := by
  simp [allRecords]

lemma fsGet_append_singleton {α : Type} (init : FS α) (k : PName) (P : List α)
    (h : k ∉ List.map Prod.fst init) : fsGet k (init ++ [(k, P)]) = some P := by
  induction init with
  | nil => simp [fsGet]
  | cons e rest ih =>
    have hek : ¬ e.1 = k := by
      intro heq
      exact h (by simp [heq])
    rw [List.cons_append]
    simp only [fsGet, if_neg hek]
    exact ih (fun hm => h (by simp at hm ⊢; exact Or.inr hm))

lemma fetchLoop_done (provider : Nat → List Tx) (elapsed : Nat → ℚ) (maxCalls : Nat)
    (fuel : Nat) (s : FetchState) (h : s.done = true) :
    fetchLoop provider elapsed maxCalls fuel s = s := by
  cases fuel with
  | zero => rfl
  | succ f =>
    simp only [fetchLoop]
    rw [if_neg]
    intro hc
    rw [h] at hc
    exact absurd hc.1 (by simp)

lemma collectBatch_replicate_nil_fst :
    ∀ k : Nat, (collectBatch (List.replicate k ([] : List Tx))).1 = [] := by
  intro k
  cases k with
  | zero => rfl
  | succ j => simp [List.replicate, collectBatch]

lemma collectBatch_short (t : List Tx) (ht : t.length < 100) (k : Nat) :
    collectBatch (t :: List.replicate k []) = (t, true) := by
  by_cases ht0 : t.length = 0
  · have hnil : t = [] := List.length_eq_zero.mp ht0
    subst hnil
    simp [collectBatch]
  · simp only [collectBatch]
    rw [if_neg (by omega), if_neg ht0, collectBatch_replicate_nil_fst]
    simp

lemma fetchIter_done (provider : Nat → List Tx) (elapsed : Nat → ℚ) (maxCalls : Nat)
    (s : FetchState) :
    (fetchIter provider elapsed maxCalls s).done
      = (s.done || (collectBatch (List.map (fun i => provider (s.page + i))
          (List.range (dispatchSize maxCalls s)))).2) := rfl

lemma fetchIter_transactions (provider : Nat → List Tx) (elapsed : Nat → ℚ) (maxCalls : Nat)
    (s : FetchState) :
    (fetchIter provider elapsed maxCalls s).transactions
      = (txFlushLoop s.store (s.transactions ++ (collectBatch
          (List.map (fun i => provider (s.page + i))
            (List.range (dispatchSize maxCalls s)))).1)).2 := rfl

lemma fetchIter_store (provider : Nat → List Tx) (elapsed : Nat → ℚ) (maxCalls : Nat)
    (s : FetchState) :
    (fetchIter provider elapsed maxCalls s).store
      = (txFlushLoop s.store (s.transactions ++ (collectBatch
          (List.map (fun i => provider (s.page + i))
            (List.range (dispatchSize maxCalls s)))).1)).1 := rfl

/-- C5 counterexample: with the two-record cache already complete and the
provider holding nothing new, a second run made 200 seconds later estimates a
batch of 4, so it issues 4 calls — one short page plus three wasted empty
pages in the same batch — not the single short-or-empty page the claim allows;
the cached records are left unchanged. -/
theorem c5_second_run_counterexample :
    (cacheTransactions c5fs c5prov c5now 8 10 zeroElapsed).map Prod.fst = some 4
    ∧ ¬ (cacheTransactions c5fs c5prov c5now 8 10 zeroElapsed).map Prod.fst = some 1
    ∧ (cacheTransactions c5fs c5prov c5now 8 10 zeroElapsed).map Prod.snd = some c5fs := by
  have hest : estimateBatch [c5tx1, c5tx2] c5now 8 = 4 := by
    norm_num [estimateBatch, estWindow, c5tx1, c5tx2, c5now, List.filter, min_def]
  have hne : c5fs ≠ [] := by decide
  have hall : allRecords c5fs = [c5tx1, c5tx2] := rfl
  have hplan : planGuard (resumePlan c5fs c5now 8).2 = 4 := by
    simp [resumePlan, planGuard, hne, hall, hest]
  have hrun : cacheTransactions c5fs c5prov c5now 8 10 zeroElapsed = some (4, c5fs) := by
    rw [cacheTransactions_run c5fs c5prov c5now 8 10 zeroElapsed 4 hplan]
    norm_num
    decide
  rw [hrun]
  refine ⟨rfl, by simp, rfl⟩

lemma firstMonthChange_some {α : Type} (tm : α → DateTime) :
    ∀ (x : α) (rest : List α), ¬ (tm x).month = (tm (rest.getLastD x)).month →
      (firstMonthChange tm (x :: rest)).isSome = true := by
  intro x rest
  induction rest generalizing x with
  | nil => intro h; exact absurd rfl h
  | cons y t ih =>
    intro h
    rw [List.getLastD_cons] at h
    by_cases hxy : (tm x).month = (tm y).month
    · have h2 : ¬ (tm y).month = (tm (t.getLastD y)).month := fun hy => h (hxy.trans hy)
      obtain ⟨j, hj⟩ := Option.isSome_iff_exists.mp (ih y h2)
      simp [firstMonthChange, hxy, hj]
    · simp [firstMonthChange, hxy]

lemma cacheStep_shrinks (store : FS Tx) (x : Tx) (rest : List Tx)
    (h : ¬ (Tx.time x).month = (Tx.time (rest.getLastD x)).month) :
    (cacheStep store (x :: rest)).1.length < (x :: rest).length := by
  obtain ⟨i, hi⟩ := Option.isSome_iff_exists.mp (firstMonthChange_some Tx.time x rest h)
  have h1 := firstMonthChange_pos Tx.time (x :: rest) i hi
  show ((x :: rest).drop (cacheIndex Tx.time (x :: rest))).length < (x :: rest).length
  simp only [cacheIndex, if_neg h, hi]
  rw [List.length_drop]
  simp only [List.length_cons]
  omega

lemma flushGo_fuel_irrelevant :
    ∀ (n : Nat) (buf : List Tx), buf.length ≤ n →
      ∀ (store : FS Tx) (fuel fuel' : Nat), buf.length ≤ fuel → buf.length ≤ fuel' →
        flushGo Tx.time cacheStep fuel store buf
          = flushGo Tx.time cacheStep fuel' store buf := by
  intro n
  induction n with
  | zero =>
    intro buf hb store fuel fuel' _ _
    have hnil : buf = [] := by
      cases buf with
      | nil => rfl
      | cons a t => simp at hb
    rw [hnil, flushGo_nil, flushGo_nil]
  | succ m ih =>
    intro buf hb store fuel fuel' h1 h2
    cases buf with
    | nil => rw [flushGo_nil, flushGo_nil]
    | cons x rest =>
      by_cases hg : (Tx.time x).month = (Tx.time (rest.getLastD x)).month
      · rw [flushGo_stop _ _ _ _ _ _ hg, flushGo_stop _ _ _ _ _ _ hg]
      · cases fuel with
        | zero => simp at h1
        | succ f =>
          cases fuel' with
          | zero => simp at h2
          | succ f' =>
            rw [flushGo_step _ _ _ _ _ _ hg, flushGo_step _ _ _ _ _ _ hg]
            have hshrink := cacheStep_shrinks store x rest hg
            simp only [List.length_cons] at hb h1 h2 hshrink
            apply ih
            · omega
            · omega
            · omega

lemma fetchIter_callBatch (provider : Nat → List Tx) (elapsed : Nat → ℚ) (maxCalls : Nat)
    (s : FetchState) :
    (fetchIter provider elapsed maxCalls s).callBatch = dispatchSize maxCalls s := rfl

lemma fetchLoop_fuel_adequate (provider : Nat → List Tx) (elapsed : Nat → ℚ) (maxCalls : Nat) :
    ∀ (fuel : Nat) (s : FetchState), 1 ≤ s.callBatch → maxCalls - s.numCalls ≤ fuel →
      ¬ ((fetchLoop provider elapsed maxCalls fuel s).done = false
          ∧ (fetchLoop provider elapsed maxCalls fuel s).numCalls < maxCalls) := by
  intro fuel
  induction fuel with
  | zero =>
    intro s _ h2
    intro hc
    have : (fetchLoop provider elapsed maxCalls 0 s).numCalls = s.numCalls := rfl
    rw [this] at hc
    omega
  | succ f ih =>
    intro s h1 h2
    simp only [fetchLoop]
    by_cases hg : s.done = false ∧ s.numCalls < maxCalls
    · rw [if_pos hg]
      have hds : 1 ≤ dispatchSize maxCalls s := by
        unfold dispatchSize
        split_ifs with h <;> omega
      apply ih
      · rw [fetchIter_callBatch]
        exact hds
      · rw [fetchIter_numCalls]
        omega
    · rw [if_neg hg]
      exact hg

lemma flushRun_eq (fs store2 : FS Tx) (buf pend : List Tx)
    (h : txFlushLoop fs buf = (store2, pend)) :
    flushRun fs buf = if pend = [] then store2 else (cacheStep store2 pend).2 := by
  simp only [flushRun, h]

lemma fsGet_of_mem_nodup {α : Type} :
    ∀ (fs : FS α) (e : PName × List α), e ∈ fs → (List.map Prod.fst fs).Nodup →
      fsGet e.1 fs = some e.2 := by
  intro fs
  induction fs with
  | nil =>
    intro e he _
    simp at he
  | cons f rest ih =>
    intro e he hnd
    rw [List.map_cons] at hnd
    rcases List.mem_cons.mp he with rfl | hmem
    · simp [fsGet]
    · have hne2 : ¬ f.1 = e.1 := by
        intro heq
        apply (List.nodup_cons.mp hnd).1
        rw [heq]
        exact List.mem_map.mpr ⟨e, hmem, rfl⟩
      simp only [fsGet, if_neg hne2]
      exact ih e hmem (List.nodup_cons.mp hnd).2

lemma record_partition_bound (fs : FS Tx)
    (hnd : (List.map Prod.fst fs).Nodup)
    (hpure : ∀ e ∈ fs, ∀ r ∈ e.2, pname r.time.year r.time.month = e.1)
    (hsort : List.Pairwise (fun a b => a.time.sec ≤ b.time.sec) (allRecords fs)) :
    ∀ r ∈ allRecords fs, ∃ Q, fsGet (pname r.time.year r.time.month) fs = some Q
      ∧ r.time.sec ≤ (Q.getLastD default).time.sec := by
  intro r hr
  obtain ⟨l, hl, hrl⟩ := List.mem_flatten.mp hr
  obtain ⟨e, he, hel⟩ := List.mem_map.mp hl
  subst hel
  refine ⟨e.2, ?_, ?_⟩
  · rw [hpure e he r hrl]
    exact fsGet_of_mem_nodup fs e he hnd
  · have hsub : List.Sublist e.2 (allRecords fs) := List.sublist_flatten_of_mem hl
    have hps := hsort.sublist hsub
    obtain ⟨zz, hz⟩ : ∃ z, e.2.getLast? = some z := by
      cases hq : e.2 with
      | nil =>
        rw [hq] at hrl
        simp at hrl
      | cons a tt => exact ⟨_, List.getLast?_eq_getLast (a :: tt) (by simp)⟩
    rw [getLastD_eq_of_getLast? e.2 default zz hz]
    exact sec_le_of_getLast? e.2 hps r hrl zz hz

lemma cacheStep_existing_whole (store : FS Tx) (y m : Nat) (Q : List Tx) (x : Tx)
    (rest : List Tx) (hub : ∀ r ∈ x :: rest, r.time.year = y ∧ r.time.month = m)
    (hgot : fsGet (pname y m) store = some Q)
    (hle : ∀ r ∈ x :: rest, r.time.sec ≤ (Q.getLastD default).time.sec) :
    cacheStep store (x :: rest) = ([], store) := by
  have hm : (Tx.time x).month = (Tx.time (rest.getLastD x)).month := by
    rw [(hub x (by simp)).2, (hub (rest.getLastD x) (mem_getLastD x rest)).2]
  simp only [cacheStep]
  rw [cacheIndex_uniform Tx.time x rest hm, List.take_length, List.drop_length]
  have hnm : (⟨cacheName x.time.year x.time.month, false⟩ : PName) = pname y m := by
    rw [(hub x (by simp)).1, (hub x (by simp)).2]; rfl
  rw [hnm]
  simp only [partitionMerge, hgot]
  have hfilter : List.filter (fun r => decide ((Q.getLastD default).time.sec < r.time.sec))
      (x :: rest) = [] := by
    rw [List.filter_eq_nil_iff]
    intro r hr
    have := hle r hr
    simp only [decide_eq_true_eq]
    omega
  rw [hfilter]
  simp

lemma cacheStep_existing_block (store : FS Tx) (y m : Nat) (Q : List Tx) (b : List Tx)
    (z : Tx) (rest : List Tx) (hb : b ≠ [])
    (hub : ∀ r ∈ b, r.time.year = y ∧ r.time.month = m)
    (hz : ¬ z.time.month = m) (hlast : ¬ (rest.getLastD z).time.month = m)
    (hgot : fsGet (pname y m) store = some Q)
    (hle : ∀ r ∈ b, r.time.sec ≤ (Q.getLastD default).time.sec) :
    cacheStep store (b ++ z :: rest) = (z :: rest, store) := by
  have hidx : cacheIndex Tx.time (b ++ z :: rest) = b.length :=
    cacheIndex_split Tx.time m b z rest hb (fun r hr => (hub r hr).2) hz hlast
  obtain ⟨x, t, rfl⟩ : ∃ x t, b = x :: t := by
    cases b with
    | nil => exact absurd rfl hb
    | cons x t => exact ⟨x, t, rfl⟩
  have hx := hub x (by simp)
  rw [List.cons_append]
  simp only [cacheStep]
  rw [← List.cons_append, hidx, List.take_left, List.drop_left]
  have hnm : (⟨cacheName x.time.year x.time.month, false⟩ : PName) = pname y m := by
    rw [hx.1, hx.2]; rfl
  rw [hnm]
  simp only [partitionMerge, hgot]
  have hfilter : List.filter (fun r => decide ((Q.getLastD default).time.sec < r.time.sec))
      (x :: t) = [] := by
    rw [List.filter_eq_nil_iff]
    intro r hr
    have := hle r hr
    simp only [decide_eq_true_eq]
    omega
  rw [hfilter]
  simp

lemma flushNoop (fs : FS Tx) :
    ∀ gs : List (List Tx),
      (∀ g ∈ gs, g ≠ []) →
      (∀ g ∈ gs, ∃ y m Q, (∀ r ∈ g, r.time.year = y ∧ r.time.month = m)
          ∧ fsGet (pname y m) fs = some Q
          ∧ ∀ r ∈ g, r.time.sec ≤ (Q.getLastD default).time.sec) →
      List.Pairwise (fun g1 g2 => ∀ r ∈ g1, ∀ s ∈ g2, ¬ r.time.month = s.time.month) gs →
      txFlushLoop fs gs.flatten = (fs, gs.getLastD []) ∧ flushRun fs gs.flatten = fs := by
  intro gs
  induction gs with
  | nil =>
    intro _ _ _
    exact ⟨rfl, rfl⟩
  | cons g gs2 ih =>
    intro hne hdata hpair
    obtain ⟨y, m, Q, hug, hQ, hle⟩ := hdata g (by simp)
    obtain ⟨x, t, rfl⟩ : ∃ a b, g = a :: b := by
      cases hgq : g with
      | nil => exact absurd hgq (hne g (by simp))
      | cons a b => exact ⟨a, b, rfl⟩
    cases gs2 with
    | nil =>
      have hm : (Tx.time x).month = (Tx.time (t.getLastD x)).month := by
        rw [(hug x (by simp)).2, (hug (t.getLastD x) (mem_getLastD x t)).2]
      have hfl1 : ([x :: t] : List (List Tx)).flatten = x :: t := by simp
      have hlast1 : ([x :: t] : List (List Tx)).getLastD [] = x :: t := by simp
      have hstop : txFlushLoop fs (x :: t) = (fs, x :: t) :=
        flushGo_stop Tx.time cacheStep (x :: t).length fs x t hm
      constructor
      · rw [hfl1, hlast1]
        exact hstop
      · rw [hfl1, flushRun_eq fs fs (x :: t) (x :: t) hstop, if_neg (by simp),
          cacheStep_existing_whole fs y m Q x t hug hQ hle]
    | cons g2 rest2 =>
      obtain ⟨z2, t2, rfl⟩ : ∃ a b, g2 = a :: b := by
        cases hgq : g2 with
        | nil => exact absurd hgq (hne g2 (by simp))
        | cons a b => exact ⟨a, b, rfl⟩
      have hpc := List.pairwise_cons.mp hpair
      have hx2 : x.time.month = m := (hug x (by simp)).2
      have hflat2 : ((z2 :: t2) :: rest2).flatten = z2 :: (t2 ++ rest2.flatten) := by simp
      have hFm : ∀ s ∈ ((z2 :: t2) :: rest2).flatten, ¬ s.time.month = m := by
        intro s hs
        obtain ⟨b, hb, hsb⟩ := List.mem_flatten.mp hs
        intro hsm
        exact hpc.1 b hb x (by simp) s hsb (hx2.trans hsm.symm)
      have hz2m : ¬ z2.time.month = m := by
        apply hFm
        rw [hflat2]
        simp
      have hlastm : ¬ ((t2 ++ rest2.flatten).getLastD z2).time.month = m := by
        apply hFm
        rw [hflat2]
        exact mem_getLastD z2 (t2 ++ rest2.flatten)
      have hstep := cacheStep_existing_block fs y m Q (x :: t) z2 (t2 ++ rest2.flatten)
        (by simp) hug hz2m hlastm hQ hle
      have hguard : ¬ (Tx.time x).month
          = (Tx.time ((t ++ z2 :: (t2 ++ rest2.flatten)).getLastD x)).month := by
        rw [getLastD_append_cons]
        intro hcontra
        exact hlastm (hcontra.symm.trans hx2)
      obtain ⟨f, hf1, hf2⟩ : ∃ f, ((x :: t) ++ z2 :: (t2 ++ rest2.flatten)).length = f + 1
          ∧ (z2 :: (t2 ++ rest2.flatten)).length ≤ f := by
        refine ⟨t.length + (t2 ++ rest2.flatten).length + 1, ?_, ?_⟩
        · simp
          omega
        · simp
      have hih := ih (fun g hg => hne g (List.mem_cons_of_mem _ hg))
        (fun g hg => hdata g (List.mem_cons_of_mem _ hg)) hpc.2
      have hloop : txFlushLoop fs ((x :: t) ++ z2 :: (t2 ++ rest2.flatten))
          = txFlushLoop fs (z2 :: (t2 ++ rest2.flatten)) := by
        show flushGo Tx.time cacheStep ((x :: t) ++ z2 :: (t2 ++ rest2.flatten)).length fs
          ((x :: t) ++ z2 :: (t2 ++ rest2.flatten)) = _
        rw [hf1, List.cons_append,
          flushGo_step Tx.time cacheStep f fs x (t ++ z2 :: (t2 ++ rest2.flatten)) hguard,
          ← List.cons_append, hstep]
        exact flushGo_fuel_irrelevant (z2 :: (t2 ++ rest2.flatten)).length
          (z2 :: (t2 ++ rest2.flatten)) le_rfl fs f (z2 :: (t2 ++ rest2.flatten)).length
          hf2 le_rfl
      have hflat3 : (((x :: t) :: (z2 :: t2) :: rest2)).flatten
          = (x :: t) ++ z2 :: (t2 ++ rest2.flatten) := by simp
      have hmain : txFlushLoop fs (((x :: t) :: (z2 :: t2) :: rest2).flatten)
          = (fs, ((z2 :: t2) :: rest2).getLastD []) := by
        rw [hflat3, hloop, ← hflat2, hih.1]
      constructor
      · rw [hmain]
        simp [List.getLastD_cons]
      · have hpend_mem : ((z2 :: t2) :: rest2).getLastD [] ∈ (z2 :: t2) :: rest2 := by
          rw [List.getLastD_cons]
          exact mem_getLastD (z2 :: t2) rest2
        have hpend_ne : ¬ ((z2 :: t2) :: rest2).getLastD [] = [] :=
          hne _ (List.mem_cons_of_mem _ hpend_mem)
        obtain ⟨yp, mp, Qp, hugp, hQp, hlep⟩ := hdata _ (List.mem_cons_of_mem _ hpend_mem)
        obtain ⟨xp, tp, hxp⟩ : ∃ a b, ((z2 :: t2) :: rest2).getLastD [] = a :: b := by
          cases hgq : ((z2 :: t2) :: rest2).getLastD [] with
          | nil => exact absurd hgq hpend_ne
          | cons a b => exact ⟨a, b, rfl⟩
        rw [flushRun_eq fs fs (((x :: t) :: (z2 :: t2) :: rest2).flatten)
          (((z2 :: t2) :: rest2).getLastD []) hmain, if_neg hpend_ne, hxp,
          cacheStep_existing_whole fs yp mp Qp xp tp (hxp ▸ hugp) hQp (hxp ▸ hlep)]

/-- C5 (amended): when the local cache already holds every remote record — the
provider pages out exactly the cached, time-ordered records, held in uniquely
keyed month-pure partitions, and the refetched trailing partial page groups
into calendar-month blocks with pairwise distinct month numbers — a second run
issues exactly one batch of `min(max_calls, estimated_batch)` calls, of which
the first page observed is short or empty (second conjunct), and leaves the
cache directory unchanged.  The trailing page may straddle month boundaries:
the flush loop merges each month block into its own existing partition, where
the tail-threshold filter drops every refetched record.  The distinct-month
proviso is forced by the year-blind split, which rewrites the store when the
page repeats a month number across years; and the run is not limited to a
single call: the whole estimated batch is dispatched together, as the
counterexample shows. -/
theorem c5_idempotent_resume_amended
    (fs : FS Tx) (provider : Nat → List Tx) (now : DateTime)
    (cpu maxCalls : Nat) (elapsed : Nat → ℚ) (gs : List (List Tx))
    (hfs_ne : fs ≠ [])
    (hnd : (List.map Prod.fst fs).Nodup)
    (hpure : ∀ e ∈ fs, ∀ r ∈ e.2, pname r.time.year r.time.month = e.1)
    (hsort : List.Pairwise (fun a b => a.time.sec ≤ b.time.sec) (allRecords fs))
    (hflat : (allRecords fs).drop ((allRecords fs).length / 100 * 100) = gs.flatten)
    (hgne : ∀ g ∈ gs, g ≠ [])
    (hgu : ∀ g ∈ gs, ∀ r ∈ g, ∀ s ∈ g,
        r.time.year = s.time.year ∧ r.time.month = s.time.month)
    (hgm : List.Pairwise (fun g1 g2 => ∀ r ∈ g1, ∀ s ∈ g2,
        ¬ r.time.month = s.time.month) gs)
    (hprov : ∀ p, 1 ≤ p → provider p
        = ((allRecords fs).drop ((p - 1) * 100)).take 100)
    (hnow : ∀ r ∈ allRecords fs, r.time.sec ≤ now.sec) :
    cacheTransactions fs provider now cpu maxCalls elapsed
      = some (min maxCalls (planGuard (estimateBatch (allRecords fs) now cpu)).toNat, fs)
    ∧ (provider ((allRecords fs).length / 100 + 1)).length < 100 := by
  have hbound := record_partition_bound fs hnd hpure hsort
  set cached : List Tx := allRecords fs with hcached
  set N : Nat := cached.length with hN
  set suffix : List Tx := cached.drop (N / 100 * 100) with hsuffix_def
  have hest_nonneg : 0 ≤ estimateBatch cached now cpu :=
    estimateBatch_nonneg cached now cpu hsort hnow
  set cb : Int := planGuard (estimateBatch cached now cpu) with hcb
  have hcb1 : (1 : Int) ≤ cb := by
    rw [hcb]
    unfold planGuard
    split_ifs with h <;> omega
  have hcbN : 1 ≤ cb.toNat := by omega
  have hplan : resumePlan fs now cpu = (N / 100 + 1, estimateBatch cached now cpu) := by
    simp only [resumePlan, if_neg hfs_ne]
  have hdivmod := Nat.div_add_mod N 100
  have hsuffix_len : suffix.length = N % 100 := by
    rw [hsuffix_def, List.length_drop]
    omega
  have hsuffix_lt : suffix.length < 100 := by
    rw [hsuffix_len]
    omega
  have hpage1 : provider (N / 100 + 1) = suffix := by
    rw [hprov (N / 100 + 1) (by omega), Nat.add_sub_cancel, ← hsuffix_def]
    exact List.take_of_length_le (by omega)
  have hpage_rest : ∀ i, 1 ≤ i → provider (N / 100 + 1 + i) = [] := by
    intro i hi
    rw [hprov _ (by omega)]
    have harg : N / 100 + 1 + i - 1 = N / 100 + i := by omega
    rw [harg]
    have hdrop : List.drop ((N / 100 + i) * 100) cached = [] := by
      apply List.drop_eq_nil_of_le
      have h1 : (N / 100 + 1) * 100 ≤ (N / 100 + i) * 100 := by
        exact Nat.mul_le_mul_right 100 (by omega)
      have h2 : N < (N / 100 + 1) * 100 := by
        rw [Nat.add_mul]
        omega
      rw [← hN]
      omega
    rw [hdrop]
    simp
  have hblocks : ∀ g ∈ gs, ∃ y m Q, (∀ r ∈ g, r.time.year = y ∧ r.time.month = m)
      ∧ fsGet (pname y m) fs = some Q
      ∧ ∀ r ∈ g, r.time.sec ≤ (Q.getLastD default).time.sec := by
    intro g hg
    obtain ⟨x, t, rfl⟩ : ∃ a b, g = a :: b := by
      cases hgq : g with
      | nil => exact absurd hgq (hgne g hg)
      | cons a b => exact ⟨a, b, rfl⟩
    have hmem : ∀ r ∈ x :: t, r ∈ cached := by
      intro r hr
      have h1 : r ∈ gs.flatten := List.mem_flatten_of_mem hg hr
      rw [← hflat] at h1
      exact List.mem_of_mem_drop (hsuffix_def ▸ h1)
    obtain ⟨Q, hQ, hQle⟩ := hbound x (hmem x (by simp))
    refine ⟨x.time.year, x.time.month, Q, ?_, hQ, ?_⟩
    · intro r hr
      exact hgu (x :: t) hg r hr x (by simp)
    · intro r hr
      obtain ⟨Qr, hQr, hQrle⟩ := hbound r (hmem r hr)
      have hkey : pname r.time.year r.time.month = pname x.time.year x.time.month := by
        have h2 := hgu (x :: t) hg r hr x (by simp)
        rw [h2.1, h2.2]
      rw [hkey, hQ] at hQr
      rw [Option.some.inj hQr]
      exact hQrle
  have hnoop := flushNoop fs gs hgne hblocks hgm
  have hfl : txFlushLoop fs suffix = (fs, gs.getLastD []) := by
    rw [hflat]
    exact hnoop.1
  have hfinal : (if gs.getLastD [] = [] then fs
      else (cacheStep fs (gs.getLastD [])).2) = fs := by
    have h2 := hnoop.2
    rw [flushRun_eq fs fs gs.flatten (gs.getLastD []) hnoop.1] at h2
    exact h2
  refine ⟨?_, by rw [hpage1]; exact hsuffix_lt⟩
  rw [cacheTransactions_run fs provider now cpu maxCalls elapsed cb (by rw [hplan])]
  rw [if_neg (by omega)]
  cases maxCalls with
  | zero =>
    simp only [fetchLoop]
    norm_num
  | succ M =>
    set s0 : FetchState :=
      ⟨false, 0, (resumePlan fs now cpu).1, cb.toNat, 500, false, 0, [], fs⟩ with hs0
    have hds : dispatchSize (M + 1) s0 = min (M + 1) cb.toNat := by
      simp only [dispatchSize, hs0]
      split_ifs with h <;> omega
    obtain ⟨k, hk⟩ : ∃ k, min (M + 1) cb.toNat = k + 1 := ⟨min (M + 1) cb.toNat - 1, by omega⟩
    have hpage : s0.page = N / 100 + 1 := by
      rw [hs0, hplan]
    have hpages : List.map (fun i => provider (s0.page + i)) (List.range (dispatchSize (M + 1) s0))
        = suffix :: List.replicate k [] := by
      rw [hds, hk, List.range_succ_eq_map, List.map_cons, List.map_map]
      refine congrArg₂ List.cons ?_ ?_
      · rw [hpage, Nat.add_zero]
        exact hpage1
      · rw [List.eq_replicate_iff]
        refine ⟨by simp, ?_⟩
        intro b hb
        obtain ⟨i, _, rfl⟩ := List.mem_map.mp hb
        show provider (s0.page + (i + 1)) = []
        rw [hpage]
        exact hpage_rest (i + 1) (by omega)
    have hcollect : collectBatch (suffix :: List.replicate k []) = (suffix, true) :=
      collectBatch_short suffix hsuffix_lt k
    have hs1done : (fetchIter provider elapsed (M + 1) s0).done = true := by
      rw [fetchIter_done, hpages, hcollect]
      simp
    have hs1num : (fetchIter provider elapsed (M + 1) s0).numCalls = min (M + 1) cb.toNat := by
      rw [fetchIter_numCalls, hds]
      show 0 + min (M + 1) cb.toNat = min (M + 1) cb.toNat
      omega
    have hs1tr : (fetchIter provider elapsed (M + 1) s0).transactions = gs.getLastD [] := by
      rw [fetchIter_transactions, hpages, hcollect]
      show (txFlushLoop fs ([] ++ suffix)).2 = gs.getLastD []
      rw [List.nil_append, hfl]
    have hs1st : (fetchIter provider elapsed (M + 1) s0).store = fs := by
      rw [fetchIter_store, hpages, hcollect]
      show (txFlushLoop fs ([] ++ suffix)).1 = fs
      rw [List.nil_append, hfl]
    have hloop : fetchLoop provider elapsed (M + 1) (M + 1) s0
        = fetchIter provider elapsed (M + 1) s0 := by
      have h1 : fetchLoop provider elapsed (M + 1) (M + 1) s0
          = fetchLoop provider elapsed (M + 1) M (fetchIter provider elapsed (M + 1) s0) := by
        simp only [fetchLoop]
        rw [if_pos]
        exact ⟨trivial, by omega⟩
      rw [h1, fetchLoop_done provider elapsed (M + 1) M _ hs1done]
    rw [hloop, hs1num, hs1tr, hs1st, hfinal]

theorem c5_idempotent_resume_amended_witness :
    cacheTransactions c5fsS c5provS c5nowS 8 10 zeroElapsed
      = some (min 10 (planGuard (estimateBatch (allRecords c5fsS) c5nowS 8)).toNat, c5fsS)
    ∧ (c5provS ((allRecords c5fsS).length / 100 + 1)).length < 100 :=
  c5_idempotent_resume_amended c5fsS c5provS c5nowS 8 10 zeroElapsed c5gs
    (by decide) (by decide) (by decide) (by decide) (by decide) (by decide) (by decide)
    (by decide) (fun p _ => rfl) (by decide)

/-- The distinct-month-numbers proviso of the amended idempotent-resume
theorem is forced by the year-blind split: a completed cache whose trailing
page repeats a month number across years — a January 2023 and a January 2024
partition, as successive incremental runs of the code produce — is rewritten
by the second run.  The page is left whole, merged under the first January
key, and the threshold filter of that partition keeps the 2024 record, so the
run duplicates it into the 2023 partition and the store changes. -/
lemma second_run_year_blind_rewrite :
    cacheTransactions ybfs ybprov ybnow 8 10 zeroElapsed
      = some (1, [(pname 2024 1, [yb2]), (pname 2023 1, [yb1, yb2])])
    ∧ ¬ (cacheTransactions ybfs ybprov ybnow 8 10 zeroElapsed).map Prod.snd = some ybfs := by
  have hest : estimateBatch [yb1, yb2] ybnow 8 = 0 := by
    norm_num [estimateBatch, estWindow, yb1, yb2, ybnow, List.filter, min_def]
  have hplan : planGuard (resumePlan ybfs ybnow 8).2 = 1 := by
    simp [resumePlan, planGuard, show ybfs ≠ [] by decide,
      show allRecords ybfs = [yb1, yb2] from rfl, hest]
  have hrun : cacheTransactions ybfs ybprov ybnow 8 10 zeroElapsed
      = some (1, [(pname 2024 1, [yb2]), (pname 2023 1, [yb1, yb2])]) := by
    rw [cacheTransactions_run ybfs ybprov ybnow 8 10 zeroElapsed 1 hplan]
    norm_num
    decide
  exact ⟨hrun, by rw [hrun]; decide⟩

end Minswap
